import Mathlib

/-!
Verification of the `ai-chatbot-backend` repository.

This file shallowly embeds the parts of the Python source that the
specification's claims are about:

* `app/services/retriever.py` — `AIRetrieverIndex` (chunking, document
  store, AI scoring, retrieval, asset resolution);
* `app/services/crawler.py` — `crawl` and its URL/domain helpers;
* `app/services/ingest.py` — `guess_mime` / `extract_any`;
* `app/routers/ask.py` — the asset-resolution part of the NDJSON stream.

Python strings are modelled as `List Char` (sequences of code points),
bytes as `List Nat`, dictionaries as insertion-ordered association lists
with replace-on-rewrite semantics, and external effects (HTTP fetches,
the language model, binary-format libraries) as explicit oracle
parameters.  All definitions are executable so concrete runs can be
settled by `decide`.
-/

set_option maxRecDepth 10000

/-- Python strings are sequences of code points. -/
abbrev Str := List Char

/-- Coerce a Lean string literal to the `List Char` model. -/
def str (s : String) : Str := s.data

/-- The whitespace characters stripped by Python's `str.strip()`. -/
def pyWS (c : Char) : Bool :=
  c = ' ' || c = '\t' || c = '\n' || c = '\r' || c = '\x0b' || c = '\x0c'

/-- Remove leading Python whitespace. -/
def trimLeft (s : Str) : Str := s.dropWhile pyWS

/-- Remove trailing Python whitespace. -/
def trimRight (s : Str) : Str := (s.reverse.dropWhile pyWS).reverse

/-- Python `str.strip()`. -/
def strip (s : Str) : Str := trimRight (trimLeft s)

/-- Python `s.split(c)` for a one-character separator: always returns at
least one piece; adjacent separators yield empty pieces. -/
def splitChar (c : Char) : Str → List Str
  | [] => [[]]
  | x :: xs =>
    if x = c then [] :: splitChar c xs
    else
      match splitChar c xs with
      | [] => [[x]]
      | p :: ps => (x :: p) :: ps

/-- Python `sep.join(pieces)`. -/
def joinSep (sep : Str) : List Str → Str
  | [] => []
  | [p] => p
  | p :: ps => p ++ sep ++ joinSep sep ps

/-- `"\n".join` as used by the chunker. -/
def joinNL (ps : List Str) : Str := joinSep ['\n'] ps

/-- Decimal rendering of a natural number (for chunk ids). -/
def natStr (n : Nat) : Str := Nat.toDigits 10 n

/-- Python `str.lower()` restricted to ASCII, as applied to filenames. -/
def lowerStr (s : Str) : Str := s.map Char.toLower

/-- Python `a.endswith(b)`. -/
def endsWith (suffix s : Str) : Bool := suffix.isSuffixOf s

/-- Python `a.startswith(b)`. -/
def startsWith (pre s : Str) : Bool := pre.isPrefixOf s

/-- Association-list lookup, modelling `dict.get` (first match; the
dicts built here never hold a key twice). -/
def dictGet {α : Type} : List (Str × α) → Str → Option α
  | [], _ => none
  | kv :: rest, k => if kv.1 == k then some kv.2 else dictGet rest k

/-- Python dict assignment `m[k] = v`: replace in place if the key
exists, otherwise append (insertion order preserved). -/
def dictSet {α : Type} : List (Str × α) → Str → α → List (Str × α)
  | [], k, v => [(k, v)]
  | kv :: rest, k, v =>
    if kv.1 == k then (k, v) :: rest else kv :: dictSet rest k v

/-- `defaultdict(list)` extension: `m[k].extend(new)` (accessing a
missing key creates an empty list first). -/
def dictExtend : List (Str × List Nat) → Str → List Nat → List (Str × List Nat)
  | [], k, new => [(k, new)]
  | kv :: rest, k, new =>
    if kv.1 == k then (kv.1, kv.2 ++ new) :: rest
    else kv :: dictExtend rest k new

/-! ## `app/services/retriever.py` -/

/-- A binary asset dict (`{"content", "mime", "source", "filename"}`).
`content` is the raw byte string; `filename` is `none` when the key is
missing or holds Python `None`. -/
structure Asset where
  source : Str
  mime : Str
  content : List Nat
  filename : Option Str
deriving DecidableEq, Repr

/-- A stored document content dict as passed to `add_document`:
the `"text"`, `"images"`, `"files"` keys plus the two `meta` keys the
retriever reads (`is_chunk`, `parent_document`).  `parentDocument` is
`none` when the key is missing or falsy. -/
structure Document where
  text : Str
  images : List Asset
  files : List Asset
  isChunkMeta : Bool
  parentDocument : Option Str
deriving DecidableEq, Repr

/-- A chunk dict produced by `_split_text_into_chunks`. -/
structure Chunk where
  chunk_id : Str
  doc_id : Str
  chunk_index : Nat
  text : Str
  char_length : Nat
deriving DecidableEq, Repr

/-- Build the chunk dict appended by the chunker: the stored text is
stripped while `char_length` measures the unstripped joined text. -/
def mkChunk (doc_id : Str) (idx : Nat) (chunk_text : Str) : Chunk :=
  { chunk_id := doc_id ++ str "#chunk-" ++ natStr idx
    doc_id := doc_id
    chunk_index := idx
    text := strip chunk_text
    char_length := chunk_text.length }

/-- The paragraph builder at the head of `_split_text_into_chunks`:
fold over the lines with the pending `current_para` accumulator. -/
def paraGo : List Str → Str → List Str
  | [], cur => if strip cur ≠ [] then [strip cur] else []
  | l :: rest, cur =>
    let ls := strip l
    if startsWith (str "[PAGE:") ls || startsWith (str "[/PAGE:") ls then
      (if strip cur ≠ [] then [strip cur] else []) ++ ls :: paraGo rest []
    else if ls = [] then
      if strip cur ≠ [] then strip cur :: paraGo rest [] else paraGo rest cur
    else
      paraGo rest (cur ++ l ++ ['\n'])

/-- Paragraph splitting of a text: split on newlines, group non-blank
lines, and treat `[PAGE:`/`[/PAGE:` marker lines as separate paragraphs. -/
def paragraphsOf (text : Str) : List Str :=
  paraGo (splitChar '\n' text) []

/-- The chunk-accumulation loop of `_split_text_into_chunks`: state is
(`current_chunk_paragraphs`, `current_length`, `chunk_index`). -/
def chunkGo (maxC overlapC : Nat) (doc_id : Str) :
    List Str → List Str → Nat → Nat → List Chunk
  | [], cur, _, idx =>
    if cur ≠ [] then
      let ct := joinNL cur
      if strip ct ≠ [] then [mkChunk doc_id idx ct] else []
    else []
  | p :: rest, cur, curLen, idx =>
    if curLen + p.length > maxC ∧ 500 ≤ curLen ∧ cur ≠ [] then
      let ct := joinNL cur
      let emitted : List Chunk :=
        if strip ct ≠ [] then [mkChunk doc_id idx ct] else []
      let idx' := if strip ct ≠ [] then idx + 1 else idx
      let next :=
        if 0 < overlapC ∧ cur ≠ [] then
          let combined := joinNL cur
          let ov :=
            if overlapC < combined.length then
              combined.drop (combined.length - overlapC)
            else combined
          ([ov, p], ov.length + p.length)
        else ([p], p.length)
      emitted ++ chunkGo maxC overlapC doc_id rest next.1 next.2 idx'
    else
      chunkGo maxC overlapC doc_id rest (cur ++ [p]) (curLen + p.length + 1) idx

/-- `AIRetrieverIndex._split_text_into_chunks`. -/
def splitTextIntoChunks (maxC overlapC : Nat) (text : Str) (doc_id : Str) :
    List Chunk :=
  if text = [] ∨ strip text = [] then []
  else chunkGo maxC overlapC doc_id (paragraphsOf text) [] 0 0

/-- The mutable state of an `AIRetrieverIndex` instance. -/
structure RIndex where
  max_chunk_chars : Nat
  overlap_chars : Nat
  max_context_tokens : Nat
  documents : List (Str × Document)
  chunks : List Chunk
  doc_to_chunks : List (Str × List Nat)
deriving Repr

/-- The constructor defaults used by `global_index`. -/
def emptyIndex : RIndex :=
  { max_chunk_chars := 2500
    overlap_chars := 400
    max_context_tokens := 40000
    documents := []
    chunks := []
    doc_to_chunks := [] }

/-- `AIRetrieverIndex.add_document`: store the content dict, chunk the
text, and append the new chunk positions for this id. -/
def addDocument (s : RIndex) (doc_id : Str) (content : Document) : RIndex :=
  let cs := splitTextIntoChunks s.max_chunk_chars s.overlap_chars content.text doc_id
  { s with
    documents := dictSet s.documents doc_id content
    chunks := s.chunks ++ cs
    doc_to_chunks := dictExtend s.doc_to_chunks doc_id
      (List.range' s.chunks.length cs.length) }

/-- The chunk index positions stored for a document id. -/
def docChunkPositions (s : RIndex) (doc_id : Str) : List Nat :=
  (dictGet s.doc_to_chunks doc_id).getD []

/-- The chunk texts a reader sees for a document id, in stored order. -/
def docChunkTexts (s : RIndex) (doc_id : Str) : List Str :=
  (docChunkPositions s doc_id).map (fun i => (s.chunks.getD i (mkChunk [] 0 [])).text)

/-- Result of `get_document_assets`: the `{"images", "files"}` dict. -/
structure AssetsResult where
  images : List Asset
  files : List Asset
deriving DecidableEq, Repr

/-- The trailing loop of `get_document_assets` case 2: scan the document
store in insertion order for an image whose `source` equals the marker,
also checking the parent document of chunk entries. -/
def findImageBySource (all : List (Str × Document)) (marker : Str) :
    List (Str × Document) → Option Asset
  | [] => none
  | (_, document) :: rest =>
    match document.images.find? (fun img => img.source == marker) with
    | some img => some img
    | none =>
      match
        (if document.isChunkMeta then
          match document.parentDocument with
          | some pid =>
            match dictGet all pid with
            | some pd => pd.images.find? (fun img => img.source == marker)
            | none => none
          | none => none
        else none) with
      | some img => some img
      | none => findImageBySource all marker rest

/-- The `docs://` branch of `get_document_assets` up to (and excluding)
the final manual parent lookup: `some` models an early `return`. -/
def docsMarkerLookup (s : RIndex) (marker : Str) : Option AssetsResult :=
  match dictGet s.documents marker with
  | some document =>
    if document.images ≠ [] ∨ document.files ≠ [] then
      some ⟨document.images, document.files⟩
    else if document.isChunkMeta then
      match document.parentDocument with
      | some pid =>
        match dictGet s.documents pid with
        | some pd => some ⟨pd.images, pd.files⟩
        | none => none
      | none => none
    else none
  | none => none

/-- `AIRetrieverIndex.get_document_assets`.  Never raises: every path
ends in a returned dict, the default being `{"images": [], "files": []}`. -/
def getDocumentAssets (s : RIndex) (marker : Str) : AssetsResult :=
  if startsWith (str "docs://") marker then
    match docsMarkerLookup s marker with
    | some r => r
    | none =>
      if '#' ∈ marker then
        let base := marker.takeWhile (· ≠ '#')
        if base ≠ marker then
          match dictGet s.documents base with
          | some pd => ⟨pd.images, pd.files⟩
          | none => ⟨[], []⟩
        else ⟨[], []⟩
      else ⟨[], []⟩
  else
    match findImageBySource s.documents marker s.documents with
    | some img => ⟨[img], []⟩
    | none => ⟨[], []⟩

/-! ### AI scoring (`_get_ai_score`, `score_chunks_with_ai`) -/

/-- Maximal digit prefix of a string and the rest. -/
def takeDigits (s : Str) : Str × Str :=
  (s.takeWhile Char.isDigit, s.dropWhile Char.isDigit)

/-- Value of a digit string. -/
def digitsToNat (ds : Str) : Nat :=
  ds.foldl (fun acc c => 10 * acc + (c.toNat - '0'.toNat)) 0

/-- The rational value of `ds.fs` (integer digits, fractional digits). -/
def decimalValue (ds fs : Str) : ℚ :=
  (digitsToNat ds : ℚ) + (digitsToNat fs : ℚ) / (10 : ℚ) ^ fs.length

/- One-pass scanner equivalent to `re.search(r'(\d+\.\d+)', s)`: the
leftmost maximal digit run followed by `.` and at least one digit.
Four states consume one character each: `scanA` looks for a run start;
`scanB` is inside the integer run and expects more digits or `.`;
`scanC` expects the first fractional digit; `scanD` extends the
fractional digits.  A failed partial match resumes scanning at the first
character that could not extend it (which is never a digit, so no
leftmost match is skipped). -/
mutual

def scanA : Str → Option (Str × Str)
  | [] => none
  | c :: rest => if c.isDigit then scanB rest [c] else scanA rest

def scanB : Str → Str → Option (Str × Str)
  | [], _ => none
  | c :: rest, ds =>
    if c.isDigit then scanB rest (ds ++ [c])
    else if c = '.' then scanC rest ds
    else scanA rest

def scanC : Str → Str → Option (Str × Str)
  | [], _ => none
  | c :: rest, ds => if c.isDigit then scanD rest ds [c] else scanA rest

def scanD : Str → Str → Str → Option (Str × Str)
  | [], ds, fs => some (ds, fs)
  | c :: rest, ds, fs =>
    if c.isDigit then scanD rest ds (fs ++ [c]) else some (ds, fs)

end

/-- Entry point of the scanner. -/
def scanDecimal (s : Str) : Option (Str × Str) := scanA s

/-- First decimal number in a string, as an exact rational, or `none`
when the pattern does not occur. -/
def firstDecimal (s : Str) : Option ℚ :=
  (scanDecimal s).map (fun df => decimalValue df.1 df.2)

/-- `AIRetrieverIndex._get_ai_score`.  The model response is an oracle
value: `none` models an exception anywhere inside the `try` block
(connection error, streaming failure); `some resp` is the accumulated
response text.  The returned score is the first decimal number clamped
to `[0, 1]`, and `0` on a parse miss or an exception. -/
def getAiScore (resp : Option Str) : ℚ :=
  match resp with
  | none => 0
  | some full_response =>
    match firstDecimal full_response with
    | some score => max 0 (min 1 score)
    | none => 0

/-- Stable descending insertion for `scored_chunks.sort(key=score,
reverse=True)`: an element moves left past strictly smaller scores only,
so equal scores keep their original order. -/
def insertDesc (x : Nat × ℚ) : List (Nat × ℚ) → List (Nat × ℚ)
  | [] => [x]
  | y :: ys => if y.2 < x.2 then x :: y :: ys else y :: insertDesc x ys

/-- Sort scored chunks by score, descending, stably. -/
def sortDesc (l : List (Nat × ℚ)) : List (Nat × ℚ) :=
  l.foldr insertDesc []

/-- `AIRetrieverIndex.score_chunks_with_ai`, with the per-chunk model
responses supplied by an oracle indexed by chunk position. -/
def scoreChunksWithAi (s : RIndex) (oracle : Nat → Option Str) (query : Str) :
    List (Nat × ℚ) :=
  if s.chunks = [] ∨ strip query = [] then []
  else
    sortDesc ((List.range s.chunks.length).map
      (fun i => (i, getAiScore (oracle i))))

/-- The selection loop of `retrieve_relevant_context`: walk the ranked
list accumulating chunks within the token budget, stopping at three. -/
def selectChunks (chunks : List Chunk) (maxTokens : Nat) :
    List (Nat × ℚ) → List (Chunk × ℚ) → Nat → List (Chunk × ℚ)
  | [], selected, _ => selected
  | (idx, score) :: rest, selected, total =>
    if chunks.length ≤ idx then selectChunks chunks maxTokens rest selected total
    else
      let c := chunks.getD idx (mkChunk [] 0 [])
      let ct := c.text.length / 4
      if maxTokens < total + ct ∧ selected ≠ [] then selected
      else
        let selected' := selected ++ [(c, score)]
        if 3 ≤ selected'.length then selected'
        else selectChunks chunks maxTokens rest selected' (total + ct)

/-- `AIRetrieverIndex.retrieve_relevant_context`: rank all chunks with
the AI oracle, keep those scoring above `0.25` (falling back to the top
five), then select under the token budget with a hard cap of three. -/
def retrieveRelevantContext (s : RIndex) (oracle : Nat → Option Str)
    (query : Str) : List (Chunk × ℚ) :=
  if s.chunks = [] then []
  else
    let scored := scoreChunksWithAi s oracle query
    let relevant := scored.filter (fun p => (1 : ℚ)/4 < p.2)
    let relevant := if relevant = [] then scored.take 5 else relevant
    selectChunks s.chunks (s.max_context_tokens / 4) relevant [] 0

/-! ## `app/services/crawler.py` -/

/-- `_remove_fragment` on the string level: `urlparse` treats everything
after the first `#` as the fragment and `geturl()` rebuilds without it. -/
def stripFragment (u : Str) : Str := u.takeWhile (· ≠ '#')

/-- `_is_http_url`: the parsed scheme is `http` or `https`. -/
def isHttpUrl (u : Str) : Bool :=
  startsWith (str "http://") u || startsWith (str "https://") u

/-- Drop everything up to and including the `://` marker. -/
def dropToAuthority : Str → Option Str
  | ':' :: '/' :: '/' :: rest => some rest
  | _ :: rest => dropToAuthority rest
  | [] => none

/-- `urlparse(u).netloc` for absolute URLs: the text between `://` and
the next `/`, `?` or `#` (empty for non-absolute inputs). -/
def netlocOf (u : Str) : Str :=
  match dropToAuthority u with
  | some rest => rest.takeWhile (fun c => !(c = '/' || c = '?' || c = '#'))
  | none => []

/-- `_registrable_domain`: the last two dot-separated labels (no
public-suffix list). -/
def registrableDomain (netloc : Str) : Str :=
  let parts := splitChar '.' netloc
  if 2 ≤ parts.length then joinSep ['.'] (parts.drop (parts.length - 2))
  else netloc

/-- `_same_domain_or_subdomain`. -/
def sameDomainOrSubdomain (target baseRegDomain : Str) : Bool :=
  target == baseRegDomain || endsWith ('.' :: baseRegDomain) target

/-- Python `text.split('\n\n')` (non-overlapping, left to right). -/
def splitNN : Str → List Str
  | [] => [[]]
  | [c] => [[c]]
  | c :: d :: rest =>
    if c = '\n' ∧ d = '\n' then [] :: splitNN rest
    else
      match splitNN (d :: rest) with
      | [] => [[c]]
      | p :: ps => (c :: p) :: ps

/-- `"\n\n".join`. -/
def joinNN (ps : List Str) : Str := joinSep (str "\n\n") ps

/-- The accumulation loop of `_split_large_text`: state is
(`current_chunk`, `current_length`). -/
def splitLargeGo (maxChars : Nat) : List Str → List Str → Nat → List Str
  | [], cur, _ =>
    if cur ≠ [] then
      let ct := strip (joinNN cur)
      if ct ≠ [] then [ct] else []
    else []
  | p :: rest, cur, curLen =>
    let plen := p.length + 2
    if maxChars < curLen + plen ∧ cur ≠ [] then
      let ct := strip (joinNN cur)
      let emitted := if ct ≠ [] then [ct] else []
      if 2 < cur.length then
        let ov := cur.drop (cur.length - 2)
        emitted ++
          splitLargeGo maxChars rest (ov ++ [p])
            ((ov.map (fun q => q.length + 2)).sum + p.length)
      else emitted ++ splitLargeGo maxChars rest [p] plen
    else splitLargeGo maxChars rest (cur ++ [p]) (curLen + plen)

/-- `_split_large_text`: identity below the threshold, else paragraph
packing on blank-line boundaries with a two-paragraph overlap. -/
def splitLargeText (text : Str) (maxChars : Nat) : List Str :=
  if text.length ≤ maxChars then [text]
  else splitLargeGo maxChars (splitNN text) [] 0

/-- What the crawler stores in `result.pages` for one key, reduced to
the fields the claims are about (`text`, and the `meta` markers
distinguishing chunk entries from complete documents). -/
structure PageEntry where
  text : Str
  isChunk : Bool
  parent : Option Str
deriving DecidableEq, Repr

/-- The observable outcome of fetching one URL, as produced by `_fetch`
plus the pure extraction helpers: HTTP status, declared content type,
the extracted text (`_extract_from_binary` for non-HTML,
`_extract_visible_text_from_html` plus linked-file text for HTML), and
the absolute link targets of the page's `<a href>` tags (after
`urljoin`).  The whole fetch raising is modelled by the `Web` oracle
returning `none`. -/
structure Fetched where
  status : Nat
  contentType : Str
  text : Str
  links : List Str
deriving Repr

/-- The network, as seen through `requests.get` and the extractors. -/
abbrev Web := Str → Option Fetched

/-- The crawl loop state: the BFS deque, the visited set, the
accumulated `result.pages` dict, and a log of every fetch performed
(with the traversal depth at which it happened). -/
structure CrawlState where
  queue : List (Str × Nat)
  visited : List Str
  pages : List (Str × PageEntry)
  fetchLog : List (Str × Nat)
deriving Repr

/-- Store the chunk entries for an oversized document: one page entry
per `_split_large_text` piece, keyed `<doc_id>#chunk-<i+1>`, marked as a
chunk pointing at its parent. -/
def addChunkEntries (pages : List (Str × PageEntry)) (doc_id : Str)
    (text : Str) : List (Str × PageEntry) :=
  (splitLargeText text 20000).enum.foldl
    (fun acc ict =>
      dictSet acc (doc_id ++ str "#chunk-" ++ natStr (ict.1 + 1))
        ⟨ict.2, true, some doc_id⟩)
    pages

/-- The link-enqueue loop at the end of the HTML branch: fragment-strip
each discovered link, keep HTTP(S) links inside the registrable domain,
and append unvisited ones while `len(result.pages) + len(queue)` is
below the page cap. -/
def enqueueLinks (maxPages : Nat) (baseReg : Str) (visited : List Str)
    (pagesLen : Nat) (depth1 : Nat) (links : List Str)
    (queue : List (Str × Nat)) : List (Str × Nat) :=
  links.foldl
    (fun q href =>
      let link := stripFragment href
      if isHttpUrl link then
        if sameDomainOrSubdomain (netlocOf link) baseReg then
          if link ∉ visited ∧ pagesLen + q.length < maxPages then
            q ++ [(link, depth1)]
          else q
        else q
      else q)
    queue

/-- One iteration of the `while` loop of `crawl`.  `none` means the loop
condition failed (empty queue or page cap reached) and the crawl
returns. -/
def crawlStep (web : Web) (maxPages maxDepth : Nat) (baseReg : Str)
    (s : CrawlState) : Option CrawlState :=
  if s.pages.length < maxPages then
    match s.queue with
    | [] => none
    | (url, depth) :: rest =>
      if url ∈ s.visited ∨ maxDepth < depth then some { s with queue := rest }
      else
        let s1 : CrawlState :=
          { queue := rest
            visited := url :: s.visited
            pages := s.pages
            fetchLog := s.fetchLog ++ [(url, depth)] }
        match web url with
        | none => some s1
        | some f =>
          if f.status ≠ 200 then some s1
          else
            let doc_id := str "docs://" ++ url
            let pages1 := dictSet s1.pages doc_id ⟨f.text, false, none⟩
            let pages2 :=
              if 20000 < f.text.length then addChunkEntries pages1 doc_id f.text
              else pages1
            if f.contentType ≠ [] ∧ f.contentType ≠ str "text/html" then
              some { s1 with pages := pages2 }
            else
              some { s1 with
                pages := pages2
                queue := enqueueLinks maxPages baseReg s1.visited pages2.length
                  (depth + 1) f.links rest }
  else none

/-- Iterate `crawlStep` for at most `fuel` iterations. -/
def crawlLoop (web : Web) (maxPages maxDepth : Nat) (baseReg : Str) :
    Nat → CrawlState → CrawlState
  | 0, s => s
  | fuel + 1, s =>
    match crawlStep web maxPages maxDepth baseReg s with
    | none => s
    | some s' => crawlLoop web maxPages maxDepth baseReg fuel s'

/-- The initial crawl state: the root at depth 0, nothing visited. -/
def crawlInit (rootUrl : Str) : CrawlState :=
  { queue := [(rootUrl, 0)], visited := [], pages := [], fetchLog := [] }

/-- `crawl(root_url)` with the given settings, run for `fuel` loop
iterations (the Python loop terminates on finite sites; any sufficiently
large fuel reaches the fixed point). -/
def crawlRun (web : Web) (maxPages maxDepth : Nat) (rootUrl : Str)
    (fuel : Nat) : CrawlState :=
  crawlLoop web maxPages maxDepth (registrableDomain (netlocOf rootUrl)) fuel
    (crawlInit rootUrl)

/-! ## `app/services/ingest.py` -/

/-- `guess_mime`: suffix dispatch on the lowercased filename, in source
order, defaulting to `application/octet-stream`. -/
def guessMime (filename : Str) : Str :=
  let name := lowerStr filename
  if endsWith (str ".pdf") name then str "application/pdf"
  else if endsWith (str ".docx") name then
    str "application/vnd.openxmlformats-officedocument.wordprocessingml.document"
  else if endsWith (str ".pptx") name then
    str "application/vnd.openxmlformats-officedocument.presentationml.presentation"
  else if endsWith (str ".xlsx") name then
    str "application/vnd.openxmlformats-officedocument.spreadsheetml.sheet"
  else if endsWith (str ".zip") name then str "application/zip"
  else if endsWith (str ".tar") name then str "application/x-tar"
  else if endsWith (str ".tar.gz") name || endsWith (str ".tgz") name then
    str "application/x-gtar"
  else if endsWith (str ".gz") name then str "application/gzip"
  else if endsWith (str ".txt") name then str "text/plain"
  else if endsWith (str ".png") name then str "image/png"
  else if endsWith (str ".jpg") name || endsWith (str ".jpeg") name then
    str "image/jpeg"
  else if endsWith (str ".gif") name then str "image/gif"
  else if endsWith (str ".bmp") name then str "image/bmp"
  else if endsWith (str ".tif") name || endsWith (str ".tiff") name then
    str "image/tiff"
  else str "application/octet-stream"

/-- The external libraries `extract_any` calls, as oracles.  `none`
models the library raising (caught by the surrounding `try`);
`decodeUtf8` never raises (`errors="ignore"`). -/
structure Extractors where
  decodeUtf8 : List Nat → Str
  pdfText : List Nat → Option Str
  docxText : List Nat → Option Str
  pptxText : List Nat → Option Str
  xlsxText : List Nat → Option Str
  ocrText : List Nat → Option Str
  zipEntries : List Nat → Option (List (Str × List Nat))
  tarEntries : List Nat → Option (List (Str × List Nat))

/-- The `meta` dict finalized at the end of `extract_any` (the returned
text is its `"text"` entry). -/
structure ExtractResult where
  filename : Str
  mime : Str
  text : Str
  images : List Asset
  files : List Asset
deriving DecidableEq, Repr

/-- `extract_any`, with archive recursion bounded by `fuel` (the Python
recursion is bounded by the nesting depth of the archive; exhausted fuel
behaves like an extraction error, which the `try` absorbs into empty
parts). -/
def extractAny (ex : Extractors) : Nat → List Nat → Str → ExtractResult
  | 0, _, filename =>
    ⟨filename, guessMime filename, [], [], []⟩
  | fuel + 1, file_bytes, filename =>
    let mime := guessMime filename
    let parts : List Str × List Asset × List Asset :=
      if startsWith (str "text/") mime then
        ([ex.decodeUtf8 file_bytes], [], [])
      else if mime = str "application/pdf" then
        (match ex.pdfText file_bytes with
         | some t => ([t], [], [])
         | none => ([], [], []))
      else if endsWith (str "wordprocessingml.document") mime then
        (match ex.docxText file_bytes with
         | some t => ([t], [], [])
         | none => ([], [], []))
      else if endsWith (str "presentationml.presentation") mime then
        (match ex.pptxText file_bytes with
         | some t => ([t], [], [])
         | none => ([], [], []))
      else if endsWith (str "spreadsheetml.sheet") mime then
        (match ex.xlsxText file_bytes with
         | some t => ([t], [], [])
         | none => ([], [], []))
      else if startsWith (str "image/") mime then
        -- the raw image is kept first; OCR failure appends "" instead
        (match ex.ocrText file_bytes with
         | some t => (if t ≠ [] ∧ strip t ≠ [] then [t] else [],
                      [⟨filename, mime, file_bytes, none⟩], [])
         | none => ([[]], [⟨filename, mime, file_bytes, none⟩], []))
      else if mime = str "application/zip" then
        (match ex.zipEntries file_bytes with
         | some entries =>
           (entries.filter (fun e => !(endsWith (str "/") e.1))).foldl
             (fun acc e =>
               let child := extractAny ex fuel e.2 e.1
               (acc.1 ++
                  (if child.text ≠ [] then
                    [str "\n# " ++ e.1 ++ str "\n" ++ child.text]
                  else []),
                acc.2.1 ++ child.images, acc.2.2 ++ child.files))
             ([], [], [])
         | none => ([], [], []))
      else if mime = str "application/x-tar" ∨ mime = str "application/x-gtar" then
        (match ex.tarEntries file_bytes with
         | some entries =>
           entries.foldl
             (fun acc e =>
               let child := extractAny ex fuel e.2 e.1
               (acc.1 ++
                  (if child.text ≠ [] then
                    [str "\n# " ++ e.1 ++ str "\n" ++ child.text]
                  else []),
                acc.2.1 ++ child.images, acc.2.2 ++ child.files))
             ([], [], [])
         | none => ([], [], []))
      else if mime = str "application/gzip" then
        ([], [], [⟨filename, mime, file_bytes, none⟩])
      else
        -- unknown binary: surface as a single file, avoid losing data
        ([], [], [⟨filename, mime, file_bytes, none⟩])
    ⟨filename, mime, joinNL parts.1, parts.2.1, parts.2.2⟩

/-! ## `app/routers/ask.py` — asset resolution in `async_json_stream` -/

/-- The kind tag of an emitted asset event (`"image"`/`"file"`). -/
inductive AKind where
  | image
  | file
deriving DecidableEq, Repr

/-- An asset NDJSON line yielded by the stream.  `src` is the asset
source the payload was built from (it becomes `url` when it is an
HTTP(S) URL, else the content is embedded as base64). -/
structure StreamEvent where
  kind : AKind
  doc_id : Str
  mime : Str
  size : Nat
  filename : Str
  src : Str
deriving DecidableEq, Repr

/-- The global dedup key: `(marker, asset_type, source, size)` exactly
as built for `processed_assets` in the source. -/
abbrev AssetKey := Str × AKind × Str × Nat

/-- State threaded through the two marker loops: emitted events plus the
`processed_markers` and `processed_assets` sets. -/
structure ResolveState where
  events : List StreamEvent
  processedMarkers : List Str
  processedAssets : List AssetKey
deriving Repr

/-- The inner loop over `assets["images"]` for one image marker:
per-marker `(source, size, mime)` dedup, then the global
`(marker, "image", source, size)` dedup, then emit. -/
def attachImages (marker : Str) : List (Nat × Asset) →
    List (Str × Nat × Str) → ResolveState → ResolveState
  | [], _, st => st
  | (imgIdx, img) :: rest, attached, st =>
    if img.content = [] then attachImages marker rest attached st
    else
      let mime := img.mime
      let src := img.source
      let filename := img.filename.getD (str "image_" ++ natStr (imgIdx + 1))
      let identifier : Str × Nat × Str := (src, img.content.length, mime)
      if identifier ∈ attached then attachImages marker rest attached st
      else
        let attached' := identifier :: attached
        let key : AssetKey := (marker, AKind.image, src, img.content.length)
        if key ∈ st.processedAssets then attachImages marker rest attached' st
        else
          attachImages marker rest attached'
            { st with
              events := st.events ++
                [⟨AKind.image, marker, mime, img.content.length, filename, src⟩]
              processedAssets := key :: st.processedAssets }

/-- Processing of one `[[IMAGE:...]]` marker: skip already-processed
markers, resolve through the index (retrying the fragment-stripped base
id when nothing was found), then attach the images. -/
def processImageMarker (idx : RIndex) (st : ResolveState) (marker : Str) :
    ResolveState :=
  if marker ∈ st.processedMarkers then st
  else
    let st := { st with processedMarkers := marker :: st.processedMarkers }
    let assets := getDocumentAssets idx marker
    let assets :=
      if assets.images = [] ∧ assets.files = [] ∧ '#' ∈ marker then
        getDocumentAssets idx (marker.takeWhile (· ≠ '#'))
      else assets
    if assets.images = [] then st
    else attachImages marker assets.images.enum [] st

/-- Python `marker.split('//')[-1].split('/')[0]` used for the fallback
file name. -/
def splitDS : Str → List Str
  | [] => [[]]
  | [c] => [[c]]
  | c :: d :: rest =>
    if c = '/' ∧ d = '/' then [] :: splitDS rest
    else
      match splitDS (d :: rest) with
      | [] => [[c]]
      | p :: ps => (c :: p) :: ps

/-- The default file name for a file event with no `filename` key. -/
def fileDefaultName (marker : Str) : Str :=
  if 1 < (splitDS marker).length then
    str "file_from_" ++
      (((splitDS marker).getLastD []).takeWhile (· ≠ '/'))
  else str "file_from_document"

/-- The inner loop over `assets["files"]` for one file marker: the 5 MB
cap, the per-marker dedup, the global dedup, then emit. -/
def attachFiles (marker : Str) : List Asset →
    List (Str × Nat × Str) → ResolveState → ResolveState
  | [], _, st => st
  | f :: rest, attached, st =>
    if f.content = [] then attachFiles marker rest attached st
    else if 5000000 < f.content.length then attachFiles marker rest attached st
    else
      let mime := f.mime
      let src := f.source
      let filename := f.filename.getD (fileDefaultName marker)
      let identifier : Str × Nat × Str := (src, f.content.length, mime)
      if identifier ∈ attached then attachFiles marker rest attached st
      else
        let attached' := identifier :: attached
        let key : AssetKey := (marker, AKind.file, src, f.content.length)
        if key ∈ st.processedAssets then attachFiles marker rest attached' st
        else
          attachFiles marker rest attached'
            { st with
              events := st.events ++
                [⟨AKind.file, marker, mime, f.content.length, filename, src⟩]
              processedAssets := key :: st.processedAssets }

/-- Processing of one `[[FILE:...]]` marker (no base-id retry here). -/
def processFileMarker (idx : RIndex) (st : ResolveState) (marker : Str) :
    ResolveState :=
  if marker ∈ st.processedMarkers then st
  else
    let st := { st with processedMarkers := marker :: st.processedMarkers }
    let assets := getDocumentAssets idx marker
    if assets.files = [] then st
    else attachFiles marker assets.files [] st

/-- The asset-resolution phase of `async_json_stream`: the image-marker
loop followed by the file-marker loop, sharing both dedup sets; returns
the emitted asset events in order. -/
def resolveAssets (idx : RIndex) (imageMarkers fileMarkers : List Str) :
    List StreamEvent :=
  let st0 : ResolveState := ⟨[], [], []⟩
  let st1 := imageMarkers.foldl (processImageMarker idx) st0
  let st2 := fileMarkers.foldl (processFileMarker idx) st1
  st2.events

/-! ## Concrete instances and auxiliary definitions used by the theorems -/

/-- The oracle in which every external library call fails. -/
def trivialExtractors : Extractors :=
  ⟨fun _ => [], fun _ => none, fun _ => none, fun _ => none, fun _ => none,
   fun _ => none, fun _ => none, fun _ => none⟩

/-- A one-chunk index for the C8 witness. -/
def wIdx : RIndex := { emptyIndex with chunks := [mkChunk (str "d") 0 (str "t")] }

/-- A concrete index holding one document with one image, for the C7
witness. -/
def wMissIdx : RIndex :=
  { emptyIndex with
    documents :=
      [(str "docs://a",
        ⟨str "body", [⟨str "s1", str "image/png", [1, 2, 3], none⟩], [],
         false, none⟩)] }

/-- The global dedup key `(marker, asset_type, source, size)` of an
emitted event. -/
def eventKey (e : StreamEvent) : AssetKey := (e.doc_id, e.kind, e.src, e.size)

/-- The invariant maintained by the resolution loops: every emitted
event's key has been recorded, and the emitted keys are pairwise
distinct. -/
def resolveInv (st : ResolveState) : Prop :=
  (∀ e ∈ st.events, eventKey e ∈ st.processedAssets) ∧
  (st.events.map eventKey).Nodup

/-- A small plain-text document for the C3 scenario. -/
def cDoc : Document := ⟨str "hello world", [], [], false, none⟩

/-- The index after adding `("d", cDoc)` once. -/
def cOnce : RIndex := addDocument emptyIndex (str "d") cDoc

/-- The index after adding `("d", cDoc)` twice. -/
def cTwice : RIndex := addDocument cOnce (str "d") cDoc

/-- A single paragraph of 2901 `'a'`s (no blank line anywhere). -/
def hugeP : Str := 'a' :: List.replicate 2900 'a'

/-- Total character count of a paragraph list. -/
def sumLen (P : List Str) : Nat := (P.map List.length).sum

/-- A single-paragraph extracted text of 20001 characters. -/
def bigText : Str := 'a' :: List.replicate 20000 'a'

/-- The root URL of the oversized-document site. -/
def urlA : Str := str "http://a.com/"

/-- A site with one PDF document whose extracted text has 20001
characters. -/
def webA : Web := fun u =>
  if u = urlA then some ⟨200, str "application/pdf", bigText, []⟩ else none

/-- The page key of the oversized document. -/
def docIdA : Str := str "docs://" ++ urlA

/-- What `result.pages` holds after the one fetch: the complete
document plus one chunk entry. -/
def pagesA : List (Str × PageEntry) :=
  [(docIdA, ⟨bigText, false, none⟩),
   (docIdA ++ str "#chunk-" ++ natStr 1, ⟨bigText, true, some docIdA⟩)]

/-- Number of complete (non-chunk) document entries in the pages dict. -/
def nonChunkCount (pages : List (Str × PageEntry)) : Nat :=
  (pages.filter (fun kv => !kv.2.isChunk)).length

/-- A concrete two-page site rooted at `docs.example.com`, whose root
links to `evil.example.org` (a different registrable domain) and to
`sub.docs.example.com` (a subdomain of the same registrable domain). -/
def webC6 : Web := fun u =>
  if u = str "https://docs.example.com/" then
    some ⟨200, str "text/html", str "hello",
      [str "https://evil.example.org/x", str "https://sub.docs.example.com/y"]⟩
  else if u = str "https://sub.docs.example.com/y" then
    some ⟨200, str "text/html", str "sub page", []⟩
  else none

/-! ## General lemmas about the embedded dictionaries -/

theorem dictGet_dictSet_self {α : Type} (m : List (Str × α)) (k : Str) (v : α) :
    dictGet (dictSet m k v) k = some v := by
  induction m with
  | nil => simp [dictGet, dictSet]
  | cons hd tl ih =>
    by_cases hk : hd.1 == k
    · simp [dictGet, dictSet, hk]
    · simp [dictGet, dictSet, hk, ih]

theorem dictGet_dictExtend_of_none (m : List (Str × List Nat)) (k : Str)
    (new : List Nat) (h : dictGet m k = none) :
    dictGet (dictExtend m k new) k = some new := by
  induction m with
  | nil => simp [dictGet, dictExtend]
  | cons hd tl ih =>
    by_cases hk : hd.1 == k
    · simp [dictGet, hk] at h
    · simp [dictGet, dictExtend, hk] at h ⊢
      exact ih h

theorem dictGet_dictExtend_of_some (m : List (Str × List Nat)) (k : Str)
    (old new : List Nat) (h : dictGet m k = some old) :
    dictGet (dictExtend m k new) k = some (old ++ new) := by
  induction m with
  | nil => simp [dictGet] at h
  | cons hd tl ih =>
    by_cases hk : hd.1 == k
    · simp [dictGet, hk] at h
      simp [dictGet, dictExtend, hk, h]
    · simp [dictGet, dictExtend, hk] at h ⊢
      exact ih h

/-! ## C9 — unknown-binary preservation in `extract_any` -/

/-- C9: for every input whose filename matches no recognized format
(`guess_mime` falls through to `application/octet-stream`), extraction
returns empty text, no images, and exactly one file asset whose content
equals the input bytes unchanged.  (`fuel + 1` only bounds archive
recursion, which this branch never enters.) -/
theorem extractAny_unknown_binary (ex : Extractors) (fuel : Nat)
    (file_bytes : List Nat) (filename : Str)
    (hmime : guessMime filename = str "application/octet-stream") :
    extractAny ex (fuel + 1) file_bytes filename =
      ⟨filename, str "application/octet-stream", [], [],
       [⟨filename, str "application/octet-stream", file_bytes, none⟩]⟩ := by
  simp +decide [extractAny, hmime, joinNL, joinSep]

/-- C9 witness: a concrete unrecognized filename. -/
theorem extractAny_unknown_binary_witness :
    guessMime (str "data.xyz") = str "application/octet-stream" ∧
    extractAny trivialExtractors 1 [7, 8, 9] (str "data.xyz") =
      ⟨str "data.xyz", str "application/octet-stream", [], [],
       [⟨str "data.xyz", str "application/octet-stream", [7, 8, 9], none⟩]⟩ :=
  ⟨by decide,
   extractAny_unknown_binary trivialExtractors 0 [7, 8, 9] (str "data.xyz")
     (by decide)⟩

/-! ## C10 — the implicit retrieval cap of three chunks -/

theorem selectChunks_length_le (chunks : List Chunk) (maxTokens : Nat) :
    ∀ (l : List (Nat × ℚ)) (selected : List (Chunk × ℚ)) (total : Nat),
      selected.length ≤ 2 →
      (selectChunks chunks maxTokens l selected total).length ≤ 3 := by
  intro l
  induction l with
  | nil => intro selected total h; simpa [selectChunks] using by omega
  | cons hd tl ih =>
    intro selected total h
    simp only [selectChunks]
    split
    · exact ih selected total h
    · split
      · omega
      · split
        · simp; omega
        · apply ih
          simp at *
          omega

/-- C10: `retrieve_relevant_context` returns at most 3 chunks for every
query, every index state and every model behaviour — regardless of
corpus size, of how many chunks score above the relevance threshold and
of the remaining token budget (and the function takes no caller-supplied
count: its only parameter is the query; the model responses are the
environment, not an argument of the Python function). -/
theorem retrieve_at_most_three (s : RIndex) (oracle : Nat → Option Str)
    (query : Str) :
    (retrieveRelevantContext s oracle query).length ≤ 3 := by
  unfold retrieveRelevantContext
  split
  · simp
  · apply selectChunks_length_le
    simp

/-! ## C8 — delegated-scoring degradation -/

theorem insertDesc_length (x : Nat × ℚ) (l : List (Nat × ℚ)) :
    (insertDesc x l).length = l.length + 1 := by
  induction l with
  | nil => simp [insertDesc]
  | cons hd tl ih =>
    simp only [insertDesc]
    split
    · simp
    · simp [ih]

theorem mem_insertDesc (x y : Nat × ℚ) (l : List (Nat × ℚ)) :
    y ∈ insertDesc x l ↔ y = x ∨ y ∈ l := by
  induction l with
  | nil => simp [insertDesc]
  | cons hd tl ih =>
    simp only [insertDesc]
    split
    · simp [or_comm, or_assoc, or_left_comm]
    · simp [ih]
      tauto

theorem sortDesc_length (l : List (Nat × ℚ)) :
    (sortDesc l).length = l.length := by
  induction l with
  | nil => rfl
  | cons hd tl ih => simp [sortDesc, List.foldr] at ih ⊢; simp [insertDesc_length, ih]

theorem mem_sortDesc (y : Nat × ℚ) (l : List (Nat × ℚ)) (h : y ∈ l) :
    y ∈ sortDesc l := by
  induction l with
  | nil => simp at h
  | cons hd tl ih =>
    simp only [sortDesc, List.foldr] at ih ⊢
    rw [mem_insertDesc]
    rcases List.mem_cons.mp h with h1 | h2
    · exact Or.inl h1
    · exact Or.inr (ih h2)

/-- C8: for every scoring response, `_get_ai_score` returns the first
decimal number in the response clamped to `[0, 1]`, and `0.0` when no
decimal number is found or the call raises (`none` response); and a
scoring failure never aborts ranking — `score_chunks_with_ai` still
scores every chunk (the ranked list has one entry per chunk, and each
chunk index appears with exactly the degraded score of its response). -/
theorem ai_scoring_degradation :
    getAiScore none = 0 ∧
    (∀ s : Str, firstDecimal s = none → getAiScore (some s) = 0) ∧
    (∀ (s : Str) (q : ℚ), firstDecimal s = some q →
      getAiScore (some s) = max 0 (min 1 q)) ∧
    (∀ (idx : RIndex) (oracle : Nat → Option Str) (query : Str),
      idx.chunks ≠ [] → strip query ≠ [] →
      (scoreChunksWithAi idx oracle query).length = idx.chunks.length ∧
      ∀ i < idx.chunks.length,
        (i, getAiScore (oracle i)) ∈ scoreChunksWithAi idx oracle query) := by
  refine ⟨rfl, ?_, ?_, ?_⟩
  · intro s h; simp [getAiScore, h]
  · intro s q h; simp [getAiScore, h]
  · intro idx oracle query h1 h2
    unfold scoreChunksWithAi
    rw [if_neg (by simp [h1, h2])]
    constructor
    · rw [sortDesc_length, List.length_map, List.length_range]
    · intro i hi
      apply mem_sortDesc
      simp only [List.mem_map, List.mem_range]
      exact ⟨i, hi, rfl⟩

/-- C8 witness: concrete responses exercising the parse-miss case, the
clamping case, and the everything-scored property. -/
theorem ai_scoring_degradation_witness :
    getAiScore (some (str "no digits here")) = 0 ∧
    getAiScore (some (str "Score: 2.5 overall")) = max 0 (min 1 ((5 : ℚ)/2)) ∧
    (scoreChunksWithAi wIdx (fun _ => none) (str "q")).length =
      wIdx.chunks.length :=
  ⟨ai_scoring_degradation.2.1 _ (by decide),
   ai_scoring_degradation.2.2.1 _ _ (by
     simp +decide [firstDecimal, scanDecimal, scanA, scanB, scanC, scanD,
       takeDigits, decimalValue, digitsToNat, str]
     norm_num),
   (ai_scoring_degradation.2.2.2 wIdx (fun _ => none) (str "q") (by decide)
     (by decide)).1⟩

/-! ## C7 — resolution miss returns empty lists -/

theorem dictGet_mem {α : Type} (m : List (Str × α)) (k : Str) (v : α)
    (h : dictGet m k = some v) : ∃ k', (k', v) ∈ m := by
  induction m with
  | nil => simp [dictGet] at h
  | cons hd tl ih =>
    by_cases hk : hd.1 == k
    · simp [dictGet, hk] at h
      exact ⟨hd.1, by simp [← h]⟩
    · simp [dictGet, hk] at h
      obtain ⟨k', hk'⟩ := ih h
      exact ⟨k', by simp [hk']⟩

theorem findImageBySource_eq_none (all : List (Str × Document)) (marker : Str)
    (himg : ∀ kv ∈ all, ∀ img ∈ kv.2.images, img.source ≠ marker) :
    ∀ scan : List (Str × Document), (∀ kv ∈ scan, kv ∈ all) →
      findImageBySource all marker scan = none := by
  intro scan
  induction scan with
  | nil => intro _; rfl
  | cons hd tl ih =>
    intro hsub
    have hhd : hd ∈ all := hsub hd (by simp)
    have h1 : hd.2.images.find? (fun img => img.source == marker) = none := by
      rw [List.find?_eq_none]
      intro img hi
      simpa using himg hd hhd img hi
    have htl : findImageBySource all marker tl = none :=
      ih (fun kv hkv => hsub kv (by simp [hkv]))
    have hscrut :
        (if hd.2.isChunkMeta then
          match hd.2.parentDocument with
          | some pid =>
            match dictGet all pid with
            | some pd => pd.images.find? (fun img => img.source == marker)
            | none => none
          | none => none
        else none) = none := by
      split
      · cases hpar : hd.2.parentDocument with
        | none => rfl
        | some pid =>
          cases hdg : dictGet all pid with
          | none => simp [hdg]
          | some pd =>
            obtain ⟨k', hk'⟩ := dictGet_mem _ _ _ hdg
            simp only [hdg]
            rw [List.find?_eq_none]
            intro img hi
            simpa using himg (k', pd) hk' img hi
      · rfl
    simp only [findImageBySource, h1, hscrut, htl]

/-- C7: a marker that matches no stored document id (directly or after
fragment stripping) and no embedded image source resolves to empty
image and file lists; every code path of `get_document_assets` returns
a dict (the Python function contains no raise and only total dict/list
operations, which the totality of this embedding reflects). -/
theorem getDocumentAssets_miss (s : RIndex) (marker : Str)
    (hdoc : dictGet s.documents marker = none)
    (hbase : dictGet s.documents (marker.takeWhile (· ≠ '#')) = none)
    (himg : ∀ kv ∈ s.documents, ∀ img ∈ kv.2.images, img.source ≠ marker) :
    getDocumentAssets s marker = ⟨[], []⟩ := by
  unfold getDocumentAssets
  split
  · have hlook : docsMarkerLookup s marker = none := by
      unfold docsMarkerLookup
      rw [hdoc]
    simp only [hlook]
    split
    · simp only [hbase]
      split <;> rfl
    · rfl
  · rw [findImageBySource_eq_none s.documents marker himg s.documents
      (fun kv hkv => hkv)]

/-- C7 witness: the unmatched marker `docs://missing` and the unmatched
bare source `nope` both resolve to empty lists. -/
theorem getDocumentAssets_miss_witness :
    getDocumentAssets wMissIdx (str "docs://missing") = ⟨[], []⟩ ∧
    getDocumentAssets wMissIdx (str "nope") = ⟨[], []⟩ :=
  ⟨getDocumentAssets_miss wMissIdx (str "docs://missing") (by decide) (by decide)
     (by decide),
   getDocumentAssets_miss wMissIdx (str "nope") (by decide) (by decide)
     (by decide)⟩

/-! ## C2 — cross-marker asset de-duplication -/

/-- C2 counterexample: in an index with one document `docs://a` holding
one image (source `s1`, 3 bytes, `image/png`), the model answer
mentioning the two distinct markers `docs://a` and `s1` — both resolving
to that same underlying asset — makes the stream emit TWO asset events
for it, because the global dedup key includes the marker.  The claimed
"at most one asset event across the whole output stream" is false. -/
theorem resolveAssets_cross_marker_duplicate :
    str "docs://a" ≠ str "s1" ∧
    (resolveAssets wMissIdx [str "docs://a", str "s1"] []).map
        (fun e => (e.kind, e.src, e.size, e.mime)) =
      [(AKind.image, str "s1", 3, str "image/png"),
       (AKind.image, str "s1", 3, str "image/png")] := by
  decide

theorem resolveInv_emit (st : ResolveState) (e : StreamEvent)
    (h : resolveInv st) (hk : eventKey e ∉ st.processedAssets) :
    resolveInv { st with
      events := st.events ++ [e]
      processedAssets := eventKey e :: st.processedAssets } := by
  obtain ⟨h1, h2⟩ := h
  constructor
  · intro x hx
    rcases List.mem_append.mp hx with hx | hx
    · exact List.mem_cons_of_mem _ (h1 x hx)
    · simp at hx
      simp [hx]
  · rw [List.map_append]
    simp only [List.map_cons, List.map_nil]
    rw [List.nodup_append]
    refine ⟨h2, List.nodup_singleton _, ?_⟩
    intro k hk1 hk2
    simp at hk2
    obtain ⟨x, hx, hxk⟩ := List.mem_map.mp hk1
    exact hk (hk2 ▸ hxk ▸ h1 x hx)

theorem attachImages_inv (marker : Str) :
    ∀ (l : List (Nat × Asset)) (att : List (Str × Nat × Str))
      (st : ResolveState), resolveInv st →
      resolveInv (attachImages marker l att st) := by
  intro l
  induction l with
  | nil => intro att st h; exact h
  | cons hd tl ih =>
    intro att st h
    obtain ⟨imgIdx, img⟩ := hd
    rw [attachImages]
    by_cases hc : img.content = []
    · simp only [hc, if_true]
      exact ih att st h
    · simp only [hc, if_false]
      by_cases hident : ((img.source, img.content.length, img.mime) :
          Str × Nat × Str) ∈ att
      · simp only [if_pos hident]
        exact ih att st h
      · simp only [if_neg hident]
        by_cases hkey : ((marker, AKind.image, img.source, img.content.length) :
            AssetKey) ∈ st.processedAssets
        · simp only [if_pos hkey]
          exact ih _ st h
        · simp only [if_neg hkey]
          exact ih _ _ (resolveInv_emit st _ h hkey)

theorem attachFiles_inv (marker : Str) :
    ∀ (l : List Asset) (att : List (Str × Nat × Str))
      (st : ResolveState), resolveInv st →
      resolveInv (attachFiles marker l att st) := by
  intro l
  induction l with
  | nil => intro att st h; exact h
  | cons f tl ih =>
    intro att st h
    rw [attachFiles]
    by_cases hc : f.content = []
    · simp only [hc, if_true]
      exact ih att st h
    · simp only [hc, if_false]
      by_cases hbig : 5000000 < f.content.length
      · simp only [if_pos hbig]
        exact ih att st h
      · simp only [if_neg hbig]
        by_cases hident : ((f.source, f.content.length, f.mime) :
            Str × Nat × Str) ∈ att
        · simp only [if_pos hident]
          exact ih att st h
        · simp only [if_neg hident]
          by_cases hkey : ((marker, AKind.file, f.source, f.content.length) :
              AssetKey) ∈ st.processedAssets
          · simp only [if_pos hkey]
            exact ih _ st h
          · simp only [if_neg hkey]
            exact ih _ _ (resolveInv_emit st _ h hkey)

theorem processImageMarker_inv (idx : RIndex) (st : ResolveState)
    (marker : Str) (h : resolveInv st) :
    resolveInv (processImageMarker idx st marker) := by
  unfold processImageMarker
  split
  · exact h
  · dsimp only
    repeat' split
    all_goals first
      | exact h
      | exact attachImages_inv marker _ _ _ h

theorem processFileMarker_inv (idx : RIndex) (st : ResolveState)
    (marker : Str) (h : resolveInv st) :
    resolveInv (processFileMarker idx st marker) := by
  unfold processFileMarker
  split
  · exact h
  · dsimp only
    repeat' split
    all_goals first
      | exact h
      | exact attachFiles_inv marker _ _ _ h

/-- C2 amended: de-duplication is per marker, not per underlying asset —
across the whole stream no two asset events share the same
`(markerOrDocId, assetKind, source, byteLength)` tuple (so a repeated
marker never re-emits, and identical assets within one marker are
emitted once), but distinct markers resolving to the same underlying
asset emit one event each. -/
theorem resolveAssets_key_nodup (idx : RIndex) (ims fms : List Str) :
    ((resolveAssets idx ims fms).map eventKey).Nodup := by
  unfold resolveAssets
  have h0 : resolveInv ⟨[], [], []⟩ := ⟨by simp, by simp⟩
  have h1 : ∀ (l : List Str) (st : ResolveState), resolveInv st →
      resolveInv (l.foldl (processImageMarker idx) st) := by
    intro l
    induction l with
    | nil => intro st h; exact h
    | cons hd tl ih =>
      intro st h
      exact ih _ (processImageMarker_inv idx st hd h)
  have h2 : ∀ (l : List Str) (st : ResolveState), resolveInv st →
      resolveInv (l.foldl (processFileMarker idx) st) := by
    intro l
    induction l with
    | nil => intro st h; exact h
    | cons hd tl ih =>
      intro st h
      exact ih _ (processFileMarker_inv idx st hd h)
  exact (h2 fms _ (h1 ims _ h0)).2

/-! ## C3 — re-adding a document is not idempotent -/

/-- C3 counterexample: adding the same `(doc_id, content)` twice does
not produce the same chunk set as adding it once — the chunk list for
`d` doubles (2 chunks instead of 1), because `add_document` always
appends to `chunks` and to `doc_to_chunks[doc_id]`. -/
theorem addDocument_not_idempotent :
    (docChunkTexts cTwice (str "d")).length = 2 ∧
    (docChunkTexts cOnce (str "d")).length = 1 := by
  decide

theorem getD_append_length (pre : List Chunk) (x : Chunk) (rest : List Chunk)
    (d0 : Chunk) : (pre ++ x :: rest).getD pre.length d0 = x := by
  induction pre with
  | nil => rfl
  | cons hd tl ih => simpa using ih

theorem mapText_getD (cs : List Chunk) :
    ∀ (all pre suf : List Chunk) (d0 : Chunk), all = pre ++ (cs ++ suf) →
      (List.range' pre.length cs.length).map
        (fun i => (all.getD i d0).text) = cs.map (fun ch => ch.text) := by
  induction cs with
  | nil => intro all pre suf d0 _; simp
  | cons c cs' ih =>
    intro all pre suf d0 hall
    have hr : List.range' pre.length (c :: cs').length =
        pre.length :: List.range' (pre.length + 1) cs'.length := rfl
    rw [hr, List.map_cons, List.map_cons]
    have hhead : (all.getD pre.length d0).text = c.text := by
      rw [hall]
      rw [show pre ++ (c :: cs' ++ suf) = pre ++ c :: (cs' ++ suf) from by simp]
      rw [getD_append_length pre c (cs' ++ suf) d0]
    have htail : (List.range' (pre.length + 1) cs'.length).map
        (fun i => (all.getD i d0).text) = cs'.map (fun ch => ch.text) := by
      have hlen : pre.length + 1 = (pre ++ [c]).length := by simp
      rw [hlen]
      exact ih all (pre ++ [c]) suf d0 (by simp [hall])
    rw [hhead, htail]

/-- C3 amended: re-adding the same `doc_id` with identical content
replaces the stored document completely (readers of `documents` see
exactly the new content, with no partial state), but chunking is not
idempotent: the chunk texts recorded for the id after adding twice are
the single-add chunk texts repeated twice. -/
theorem addDocument_readd (s : RIndex) (d : Str) (c : Document)
    (h : dictGet s.doc_to_chunks d = none) :
    dictGet (addDocument (addDocument s d c) d c).documents d = some c ∧
    docChunkTexts (addDocument (addDocument s d c) d c) d =
      docChunkTexts (addDocument s d c) d ++
        docChunkTexts (addDocument s d c) d := by
  constructor
  · exact dictGet_dictSet_self _ _ _
  · set cs := splitTextIntoChunks s.max_chunk_chars s.overlap_chars c.text d
      with hcs_def
    have hpos1 : dictGet (addDocument s d c).doc_to_chunks d =
        some (List.range' s.chunks.length cs.length) :=
      dictGet_dictExtend_of_none _ _ _ h
    have hpos2 : dictGet (addDocument (addDocument s d c) d c).doc_to_chunks d =
        some (List.range' s.chunks.length cs.length ++
          List.range' (s.chunks.length + cs.length) cs.length) := by
      have := dictGet_dictExtend_of_some (addDocument s d c).doc_to_chunks d
        (List.range' s.chunks.length cs.length)
        (List.range' (addDocument s d c).chunks.length cs.length) hpos1
      simpa [addDocument, List.length_append] using this
    unfold docChunkTexts docChunkPositions
    rw [hpos1, hpos2]
    simp only [Option.getD_some, List.map_append]
    have hchunks2 : (addDocument (addDocument s d c) d c).chunks =
        s.chunks ++ (cs ++ cs) := by
      simp [addDocument, List.append_assoc]
    have hchunks1 : (addDocument s d c).chunks = s.chunks ++ (cs ++ []) := by
      simp [addDocument]
    rw [hchunks1, hchunks2]
    rw [show s.chunks.length + cs.length = (s.chunks ++ cs).length from by simp]
    rw [mapText_getD cs (s.chunks ++ (cs ++ cs)) s.chunks cs (mkChunk [] 0 [])
      rfl]
    rw [mapText_getD cs (s.chunks ++ (cs ++ cs)) (s.chunks ++ cs) []
      (mkChunk [] 0 []) (by simp)]
    rw [mapText_getD cs (s.chunks ++ (cs ++ [])) s.chunks [] (mkChunk [] 0 [])
      rfl]

/-- C3 witness: the concrete double add of `("d", cDoc)` to the empty
index. -/
theorem addDocument_readd_witness :
    dictGet emptyIndex.doc_to_chunks (str "d") = none ∧
    dictGet cTwice.documents (str "d") = some cDoc ∧
    docChunkTexts cTwice (str "d") =
      docChunkTexts cOnce (str "d") ++ docChunkTexts cOnce (str "d") :=
  ⟨by decide,
   (addDocument_readd emptyIndex (str "d") cDoc (by decide)).1,
   (addDocument_readd emptyIndex (str "d") cDoc (by decide)).2⟩

/-! ## Lemmas about the string helpers -/

theorem trimLeft_eq_self (l : Str) (h : ∀ x ∈ l, pyWS x = false) :
    trimLeft l = l := by
  cases l with
  | nil => rfl
  | cons hd tl =>
    unfold trimLeft
    rw [List.dropWhile_cons, h hd (by simp)]
    simp

theorem trimRight_eq_self (l : Str) (h : ∀ x ∈ l, pyWS x = false) :
    trimRight l = l := by
  unfold trimRight
  have hd : List.dropWhile pyWS l.reverse = l.reverse := by
    rw [List.dropWhile_eq_self_iff]
    intro hh
    have hm : (List.reverse l).get ⟨0, hh⟩ ∈ List.reverse l := List.get_mem _ _ _
    rw [h _ (List.mem_reverse.mp hm)]
    simp
  rw [hd, List.reverse_reverse]

theorem strip_eq_self (l : Str) (h : ∀ x ∈ l, pyWS x = false) :
    strip l = l := by
  unfold strip
  rw [trimLeft_eq_self l h, trimRight_eq_self l h]

theorem trimRight_append_newline (l : Str) :
    trimRight (l ++ ['\n']) = trimRight l := by
  unfold trimRight
  rw [List.reverse_append]
  rfl

theorem strip_append_newline (l : Str) (h : ∀ x ∈ l, pyWS x = false) :
    strip (l ++ ['\n']) = l := by
  cases l with
  | nil => rfl
  | cons hd tl =>
    unfold strip
    have h1 : trimLeft ((hd :: tl) ++ ['\n']) = (hd :: tl) ++ ['\n'] := by
      unfold trimLeft
      rw [List.cons_append, List.dropWhile_cons, h hd (by simp)]
      simp
    rw [h1, trimRight_append_newline, trimRight_eq_self _ h]

theorem splitChar_not_mem (c : Char) (l : Str) (h : c ∉ l) :
    splitChar c l = [l] := by
  induction l with
  | nil => rfl
  | cons x xs ih =>
    have hx : ¬(x = c) := fun e => h (by simp [e])
    have hxs : c ∉ xs := fun hh => h (by simp [hh])
    rw [splitChar, if_neg hx, ih hxs]

theorem splitNN_not_mem (l : Str) (h : '\n' ∉ l) : splitNN l = [l] := by
  induction l with
  | nil => rfl
  | cons x xs ih =>
    have hx : ¬(x = '\n') := fun e => h (by simp [e])
    have hxs : '\n' ∉ xs := fun hh => h (by simp [hh])
    cases xs with
    | nil => rfl
    | cons y ys =>
      rw [splitNN, if_neg (by tauto), ih hxs]

theorem paragraphsOf_single (t : Str) (hnl : '\n' ∉ t)
    (hws : ∀ x ∈ t, pyWS x = false) (hne : t ≠ [])
    (hp1 : startsWith (str "[PAGE:") t = false)
    (hp2 : startsWith (str "[/PAGE:") t = false) :
    paragraphsOf t = [t] := by
  unfold paragraphsOf
  rw [splitChar_not_mem _ _ hnl]
  rw [paraGo]
  simp only [strip_eq_self t hws, hp1, hp2, Bool.or_self, Bool.false_eq_true,
    if_false, if_neg hne]
  rw [List.nil_append, paraGo]
  rw [strip_append_newline t hws, if_pos hne]

/-- A text of length `maxChunkChars` or less that forms a single
paragraph always yields one chunk containing the whole text — and so
does a single paragraph of ANY length, because the split condition of
the chunker also requires `current_length >= 500` and the accumulated
length is still `0` when the first paragraph is examined. -/
theorem splitTextIntoChunks_single_paragraph (maxC overlapC : Nat)
    (t d : Str) (hpar : paragraphsOf t = [t]) (hne : t ≠ [])
    (hstrip : strip t = t) :
    splitTextIntoChunks maxC overlapC t d = [mkChunk d 0 t] := by
  unfold splitTextIntoChunks
  rw [if_neg (by simp [hne, hstrip])]
  rw [hpar, chunkGo, if_neg (by omega)]
  rw [List.nil_append, chunkGo]
  have hj : joinNL [t] = t := rfl
  simp only [hj, hstrip]
  rw [if_pos (by simp), if_pos hne]

/-! ## C4 — large-text chunk bounds -/

theorem hugeP_ws : ∀ x ∈ hugeP, pyWS x = false := by
  intro x hx
  rcases List.mem_cons.mp hx with he | hm
  · rw [he]; rfl
  · rw [List.eq_of_mem_replicate hm]; rfl

theorem hugeP_len : hugeP.length = 2901 := by simp [hugeP]

/-- C4 counterexample: with the configured `maxChunkChars = 2500`,
`overlapChars = 400`, the single-paragraph text of 2901 characters
(strictly longer than `maxChunkChars`) produces exactly ONE chunk — not
at least two — and that chunk's `char_length` is 2901, which exceeds
`maxChunkChars + overlapChars = 2900` (the split condition additionally
requires 500 characters already accumulated, which never holds for the
first paragraph). -/
theorem chunker_bound_violated :
    2500 < hugeP.length ∧
    splitTextIntoChunks 2500 400 hugeP (str "d") = [mkChunk (str "d") 0 hugeP] ∧
    (mkChunk (str "d") 0 hugeP).char_length = 2901 ∧
    ¬(2901 ≤ 2500 + 400) := by
  have hnl : '\n' ∉ hugeP := by
    intro hmem
    rcases List.mem_cons.mp hmem with he | hm
    · exact absurd he (by decide)
    · exact absurd (List.eq_of_mem_replicate hm) (by decide)
  have hne : hugeP ≠ [] := by
    show ('a' :: List.replicate 2900 'a') ≠ []
    exact List.cons_ne_nil _ _
  have hp1 : startsWith (str "[PAGE:") hugeP = false := by decide
  have hp2 : startsWith (str "[/PAGE:") hugeP = false := by decide
  refine ⟨by rw [hugeP_len]; norm_num, ?_, ?_, by norm_num⟩
  · exact splitTextIntoChunks_single_paragraph 2500 400 hugeP (str "d")
      (paragraphsOf_single hugeP hnl hugeP_ws hne hp1 hp2) hne
      (strip_eq_self _ hugeP_ws)
  · simp [mkChunk, hugeP_len]

theorem chunkGo_indices (maxC overlapC : Nat) (d : Str) :
    ∀ (ps cur : List Str) (curLen idx : Nat),
      (chunkGo maxC overlapC d ps cur curLen idx).map (fun c => c.chunk_index) =
        List.range' idx (chunkGo maxC overlapC d ps cur curLen idx).length := by
  intro ps
  induction ps with
  | nil =>
    intro cur curLen idx
    rw [chunkGo]
    split
    · dsimp only
      split
      · simp [mkChunk, List.range']
      · simp
    · simp
  | cons p rest ih =>
    intro cur curLen idx
    rw [chunkGo]
    split
    · dsimp only
      by_cases hstrip : strip (joinNL cur) ≠ []
      · simp only [if_pos hstrip, List.singleton_append, List.map_cons,
          List.length_cons, mkChunk]
        rw [ih]
        rfl
      · simp only [if_neg hstrip, List.nil_append]
        exact ih _ _ _
    · exact ih _ _ _

/-- C4 amended: the chunk indices are always contiguous `0..n-1` for
every text and every configuration; but a text longer than
`maxChunkChars` may come out as a single chunk, and a chunk's
`char_length` can exceed `maxChunkChars + overlapChars` (the 500-char
accumulation guard lets any first paragraph through whole). -/
theorem splitTextIntoChunks_indices (maxC overlapC : Nat) (text d : Str) :
    (splitTextIntoChunks maxC overlapC text d).map (fun c => c.chunk_index) =
      List.range (splitTextIntoChunks maxC overlapC text d).length := by
  unfold splitTextIntoChunks
  split
  · simp
  · rw [chunkGo_indices, List.range_eq_range']

/-! ## C5 — infrastructure: more facts about `strip`, `splitChar`, `joinNL` -/

theorem dropWhile_idem (p : Char → Bool) (l : Str) :
    List.dropWhile p (List.dropWhile p l) = List.dropWhile p l := by
  cases h : List.dropWhile p l with
  | nil => rfl
  | cons b t =>
    have hb := List.head?_dropWhile_not p l
    rw [h] at hb
    simp only [List.head?_cons] at hb
    rw [List.dropWhile_cons_of_neg (by simp [hb])]

theorem trimLeft_trimLeft (l : Str) : trimLeft (trimLeft l) = trimLeft l :=
  dropWhile_idem pyWS l

theorem trimRight_trimRight (l : Str) : trimRight (trimRight l) = trimRight l := by
  unfold trimRight
  rw [List.reverse_reverse, dropWhile_idem]

theorem trimRight_append_decomp (l : Str) :
    l = trimRight l ++ (List.takeWhile pyWS l.reverse).reverse := by
  conv_lhs => rw [← List.reverse_reverse l,
    ← List.takeWhile_append_dropWhile (p := pyWS) (l := l.reverse)]
  rw [List.reverse_append]
  rfl

theorem trimLeft_trimRight_trimLeft (l : Str) :
    trimLeft (trimRight (trimLeft l)) = trimRight (trimLeft l) := by
  cases hB : trimRight (trimLeft l) with
  | nil => rfl
  | cons b t =>
    have hpre := trimRight_append_decomp (trimLeft l)
    rw [hB] at hpre
    have ht' : trimLeft l =
        b :: (t ++ (List.takeWhile pyWS (trimLeft l).reverse).reverse) := by
      conv_lhs => rw [hpre]
      rw [List.cons_append]
    have hb := List.head?_dropWhile_not pyWS l
    rw [show List.dropWhile pyWS l = trimLeft l from rfl, ht'] at hb
    simp only [List.head?_cons] at hb
    unfold trimLeft
    rw [List.dropWhile_cons_of_neg (by simp [hb])]

theorem strip_idem (l : Str) : strip (strip l) = strip l := by
  show trimRight (trimLeft (trimRight (trimLeft l))) = trimRight (trimLeft l)
  rw [trimLeft_trimRight_trimLeft, trimRight_trimRight]

theorem strip_eq_nil_of_all_ws (l : Str) (h : ∀ c ∈ l, pyWS c = true) :
    strip l = [] := by
  have h1 : trimLeft l = [] := by
    unfold trimLeft
    rw [List.dropWhile_eq_nil_iff]
    exact h
  unfold strip
  rw [h1]
  rfl

theorem all_ws_of_strip_eq_nil (l : Str) (h : strip l = []) :
    ∀ c ∈ l, pyWS c = true := by
  intro c hc
  unfold strip trimRight at h
  have h2 : List.dropWhile pyWS (trimLeft l).reverse = [] := by
    cases hx : List.dropWhile pyWS (trimLeft l).reverse with
    | nil => rfl
    | cons b t => rw [hx] at h; simp at h
  rw [List.dropWhile_eq_nil_iff] at h2
  rcases List.append_of_mem hc with ⟨s1, s2, hdec⟩
  by_cases hmem : c ∈ trimLeft l
  · exact h2 c (List.mem_reverse.mpr hmem)
  · have hsplit : l = List.takeWhile pyWS l ++ trimLeft l :=
      (List.takeWhile_append_dropWhile pyWS l).symm
    have : c ∈ List.takeWhile pyWS l := by
      rcases List.mem_append.mp (hsplit ▸ hc) with h | h
      · exact h
      · exact absurd h hmem
    exact List.mem_takeWhile_imp this

theorem length_dropWhile_le (p : Char → Bool) (l : Str) :
    (l.dropWhile p).length ≤ l.length := by
  induction l with
  | nil => simp
  | cons hd tl ih =>
    rw [List.dropWhile_cons]
    split
    · exact Nat.le_succ_of_le ih
    · simp

theorem length_trimLeft_le (l : Str) : (trimLeft l).length ≤ l.length :=
  length_dropWhile_le pyWS l

theorem length_trimRight_le (l : Str) : (trimRight l).length ≤ l.length := by
  unfold trimRight
  rw [List.length_reverse]
  calc (List.dropWhile pyWS l.reverse).length ≤ l.reverse.length :=
        length_dropWhile_le pyWS l.reverse
    _ = l.length := List.length_reverse l

theorem length_strip_le (l : Str) : (strip l).length ≤ l.length :=
  Nat.le_trans (length_trimRight_le _) (length_trimLeft_le _)

theorem length_strip_append_newline (x : Str) :
    (strip (x ++ ['\n'])).length ≤ x.length := by
  unfold strip trimLeft
  rw [List.dropWhile_append]
  split
  · have : List.dropWhile pyWS ['\n'] = [] := rfl
    rw [this]
    simp [trimRight]
  · rw [trimRight_append_newline]
    calc (trimRight (List.dropWhile pyWS x)).length
        ≤ (List.dropWhile pyWS x).length := length_trimRight_le _
      _ ≤ x.length := length_dropWhile_le pyWS x

theorem splitChar_ne_nil (c : Char) (l : Str) : splitChar c l ≠ [] := by
  cases l with
  | nil => simp [splitChar]
  | cons x xs =>
    rw [splitChar]
    split
    · simp
    · split
      · simp
      · simp

theorem splitChar_sumLen (c : Char) (l : Str) :
    sumLen (splitChar c l) + (splitChar c l).length = l.length + 1 := by
  induction l with
  | nil => rfl
  | cons x xs ih =>
    rw [splitChar]
    by_cases hx : x = c
    · rw [if_pos hx]
      simp only [sumLen, List.map_cons, List.sum_cons, List.length_cons,
        List.length_nil] at ih ⊢
      omega
    · rw [if_neg hx]
      cases hs : splitChar c xs with
      | nil => exact absurd hs (splitChar_ne_nil c xs)
      | cons p ps =>
        rw [hs] at ih
        simp only [sumLen, List.map_cons, List.sum_cons, List.length_cons,
          List.length_nil] at ih ⊢
        omega

theorem joinSep_splitChar (c : Char) (l : Str) :
    joinSep [c] (splitChar c l) = l := by
  induction l with
  | nil => rfl
  | cons x xs ih =>
    rw [splitChar]
    by_cases hx : x = c
    · rw [if_pos hx]
      cases hs : splitChar c xs with
      | nil => exact absurd hs (splitChar_ne_nil c xs)
      | cons p ps =>
        rw [hs] at ih
        show joinSep [c] ([] :: p :: ps) = x :: xs
        rw [show joinSep [c] ([] :: p :: ps) = [] ++ [c] ++ joinSep [c] (p :: ps)
          from rfl]
        rw [ih, hx]
        rfl
    · rw [if_neg hx]
      cases hs : splitChar c xs with
      | nil => exact absurd hs (splitChar_ne_nil c xs)
      | cons p ps =>
        rw [hs] at ih
        cases ps with
        | nil =>
          show joinSep [c] [x :: p] = x :: xs
          rw [show joinSep [c] [x :: p] = x :: p from rfl]
          rw [show joinSep [c] [p] = p from rfl] at ih
          rw [ih]
        | cons q qs =>
          show joinSep [c] ((x :: p) :: q :: qs) = x :: xs
          rw [show joinSep [c] ((x :: p) :: q :: qs) =
            (x :: p) ++ [c] ++ joinSep [c] (q :: qs) from rfl]
          rw [show joinSep [c] (p :: q :: qs) =
            p ++ [c] ++ joinSep [c] (q :: qs) from rfl] at ih
          rw [← ih]
          rfl

theorem mem_joinSep (sep : Str) (P : List Str) (c : Char) :
    c ∈ joinSep sep P → (∃ p ∈ P, c ∈ p) ∨ c ∈ sep := by
  induction P with
  | nil => intro h; simp [joinSep] at h
  | cons p ps ih =>
    intro h
    cases ps with
    | nil =>
      left
      exact ⟨p, by simp, h⟩
    | cons q qs =>
      rw [show joinSep sep (p :: q :: qs) = p ++ sep ++ joinSep sep (q :: qs)
        from rfl] at h
      rcases List.mem_append.mp h with h1 | h2
      · rcases List.mem_append.mp h1 with ha | hb
        · exact Or.inl ⟨p, by simp, ha⟩
        · exact Or.inr hb
      · rcases ih h2 with ⟨r, hr, hc⟩ | hs
        · exact Or.inl ⟨r, by simp [hr], hc⟩
        · exact Or.inr hs

theorem paraGo_eq_nil : ∀ (lines : List Str) (cur : Str),
    paraGo lines cur = [] → strip cur = [] ∧ ∀ l ∈ lines, strip l = [] := by
  intro lines
  induction lines with
  | nil =>
    intro cur h
    rw [paraGo] at h
    split at h
    · simp at h
    · rename_i hg
      rw [not_not] at hg
      exact ⟨hg, by simp⟩
  | cons l rest ih =>
    intro cur h
    rw [paraGo] at h
    split at h
    · simp at h
    · split at h
      · split at h
        · simp at h
        · rename_i hblank hflush
          rw [not_not] at hflush
          obtain ⟨h1, h2⟩ := ih cur h
          refine ⟨hflush, ?_⟩
          intro l' hl'
          rcases List.mem_cons.mp hl' with he | hm
          · rw [he]; exact hblank
          · exact h2 l' hm
      · rename_i hpage hblank
        obtain ⟨h1, h2⟩ := ih (cur ++ l ++ ['\n']) h
        exfalso
        apply hblank
        apply strip_eq_nil_of_all_ws
        intro c hc
        exact all_ws_of_strip_eq_nil _ h1 c (by simp [hc])

theorem paraGo_stripped : ∀ (lines : List Str) (cur : Str) (p : Str),
    p ∈ paraGo lines cur → p ≠ [] ∧ strip p = p := by
  intro lines
  induction lines with
  | nil =>
    intro cur p hp
    rw [paraGo] at hp
    split at hp
    · rename_i hg
      rw [List.mem_singleton.mp hp]
      exact ⟨hg, strip_idem cur⟩
    · simp at hp
  | cons l rest ih =>
    intro cur p hp
    rw [paraGo] at hp
    split at hp
    · rename_i hpage
      rcases List.mem_append.mp hp with hA | hB
      · split at hA
        · rename_i hg
          rw [List.mem_singleton.mp hA]
          exact ⟨hg, strip_idem cur⟩
        · simp at hA
      · rcases List.mem_cons.mp hB with he | hm
        · have hls : strip l ≠ [] := by
            intro hnil
            rw [hnil] at hpage
            exact absurd hpage (by decide)
          rw [he]
          exact ⟨hls, strip_idem l⟩
        · exact ih [] p hm
    · split at hp
      · split at hp
        · rename_i hblank hg
          rcases List.mem_cons.mp hp with he | hm
          · rw [he]
            exact ⟨hg, strip_idem cur⟩
          · exact ih [] p hm
        · exact ih cur p hp
      · exact ih (cur ++ l ++ ['\n']) p hp

theorem paragraphsOf_ne_nil (text : Str) (h : strip text ≠ []) :
    paragraphsOf text ≠ [] := by
  intro hnil
  unfold paragraphsOf at hnil
  obtain ⟨hcur, hlines⟩ := paraGo_eq_nil _ _ hnil
  apply h
  apply strip_eq_nil_of_all_ws
  intro ch hch
  have hmem : ch ∈ joinSep ['\n'] (splitChar '\n' text) := by
    rw [joinSep_splitChar]
    exact hch
  rcases mem_joinSep _ _ _ hmem with ⟨p, hp, hcp⟩ | hsep
  · exact all_ws_of_strip_eq_nil p (hlines p hp) ch hcp
  · rw [List.mem_singleton.mp hsep]
    rfl

theorem dropWhile_eq_self_of_length (p : Char → Bool) (l : Str)
    (h : (List.dropWhile p l).length = l.length) : List.dropWhile p l = l := by
  have hsplit := List.takeWhile_append_dropWhile p l
  have hlen : (List.takeWhile p l).length + (List.dropWhile p l).length =
      l.length := by
    rw [← List.length_append, hsplit]
  have htw : List.takeWhile p l = [] := by
    have : (List.takeWhile p l).length = 0 := by omega
    exact List.eq_nil_of_length_eq_zero this
  conv_rhs => rw [← hsplit]
  rw [htw, List.nil_append]

theorem trimLeft_eq_of_strip (p : Str) (h : strip p = p) : trimLeft p = p := by
  have h1 : p.length ≤ (trimLeft p).length := by
    calc p.length = (strip p).length := by rw [h]
      _ ≤ (trimLeft p).length := length_trimRight_le _
  exact dropWhile_eq_self_of_length pyWS p
    (Nat.le_antisymm (length_trimLeft_le p) h1)

theorem trimRight_eq_of_strip (p : Str) (h : strip p = p) : trimRight p = p := by
  have h1 := trimLeft_eq_of_strip p h
  calc trimRight p = trimRight (trimLeft p) := by rw [h1]
    _ = strip p := rfl
    _ = p := h

theorem head_not_ws_of_trimLeft (h : Char) (t : Str)
    (hp : trimLeft (h :: t) = h :: t) : pyWS h = false := by
  cases hww : pyWS h with
  | false => rfl
  | true =>
    unfold trimLeft at hp
    rw [List.dropWhile_cons_of_pos hww] at hp
    have := length_dropWhile_le pyWS t
    rw [hp] at this
    simp at this

theorem trimLeft_append_left (p X : Str) (hp : trimLeft p = p) (hne : p ≠ []) :
    trimLeft (p ++ X) = p ++ X := by
  obtain ⟨h, t, rfl⟩ := List.exists_cons_of_ne_nil hne
  have hw := head_not_ws_of_trimLeft h t hp
  rw [List.cons_append]
  unfold trimLeft
  rw [List.dropWhile_cons_of_neg (by simp [hw])]

theorem trimLeft_joinNL (P : List Str)
    (hP : ∀ p ∈ P, p ≠ [] ∧ strip p = p) :
    trimLeft (joinNL P) = joinNL P := by
  cases P with
  | nil => rfl
  | cons p rest =>
    cases rest with
    | nil =>
      show trimLeft p = p
      exact trimLeft_eq_of_strip p (hP p (by simp)).2
    | cons q qs =>
      rw [show joinNL (p :: q :: qs) = p ++ (['\n'] ++ joinNL (q :: qs)) from by
        rw [show joinNL (p :: q :: qs) = p ++ ['\n'] ++ joinNL (q :: qs) from rfl,
          List.append_assoc]]
      obtain ⟨hne, hst⟩ := hP p (by simp)
      exact trimLeft_append_left p _ (trimLeft_eq_of_strip p hst) hne

theorem joinNL_append_singleton : ∀ (Q : List Str) (p : Str), Q ≠ [] →
    joinNL (Q ++ [p]) = (joinNL Q ++ ['\n']) ++ p := by
  intro Q
  induction Q with
  | nil => intro p h; exact absurd rfl h
  | cons q qs ih =>
    intro p _
    cases qs with
    | nil =>
      show joinNL [q, p] = (joinNL [q] ++ ['\n']) ++ p
      rw [show joinNL [q, p] = q ++ ['\n'] ++ p from rfl,
        show joinNL [q] = q from rfl]
    | cons r rs =>
      have h1 : joinNL ((q :: r :: rs) ++ [p]) =
          q ++ ['\n'] ++ joinNL ((r :: rs) ++ [p]) := rfl
      have h2 : joinNL (q :: r :: rs) = q ++ ['\n'] ++ joinNL (r :: rs) := rfl
      rw [h1, ih p (by simp), h2]
      simp [List.append_assoc]

theorem trimRight_append_right (X p : Str) (hp : trimRight p = p)
    (hne : p ≠ []) : trimRight (X ++ p) = X ++ p := by
  have hrev : List.dropWhile pyWS p.reverse = p.reverse := by
    have : (trimRight p).reverse = p.reverse := by rw [hp]
    unfold trimRight at this
    rw [List.reverse_reverse] at this
    exact this
  have hrne : p.reverse ≠ [] := by simp [hne]
  obtain ⟨h, t, hht⟩ := List.exists_cons_of_ne_nil hrne
  rw [hht] at hrev
  have hw := head_not_ws_of_trimLeft h t hrev
  unfold trimRight
  rw [List.reverse_append, hht, List.cons_append,
    List.dropWhile_cons_of_neg (by simp [hw]), ← List.cons_append, ← hht,
    List.reverse_append, List.reverse_reverse, List.reverse_reverse]

theorem trimRight_joinNL (P : List Str)
    (hP : ∀ p ∈ P, p ≠ [] ∧ strip p = p) :
    trimRight (joinNL P) = joinNL P := by
  rcases List.eq_nil_or_concat P with hnil | ⟨Q, p, hQp⟩
  · rw [hnil]; rfl
  · subst hQp
    simp only [List.concat_eq_append] at hP ⊢
    obtain ⟨hne, hst⟩ := hP p (by simp)
    cases hQ : Q with
    | nil =>
      show trimRight (joinNL [p]) = joinNL [p]
      exact trimRight_eq_of_strip p hst
    | cons q qs =>
      rw [← hQ, joinNL_append_singleton Q p (by rw [hQ]; simp)]
      exact trimRight_append_right _ p (trimRight_eq_of_strip p hst) hne

theorem strip_joinNL (P : List Str) (hP : ∀ p ∈ P, p ≠ [] ∧ strip p = p) :
    strip (joinNL P) = joinNL P := by
  unfold strip
  rw [trimLeft_joinNL P hP, trimRight_joinNL P hP]

theorem joinNL_ne_nil (P : List Str) (hne : P ≠ [])
    (hP : ∀ p ∈ P, p ≠ []) : joinNL P ≠ [] := by
  cases P with
  | nil => exact absurd rfl hne
  | cons p rest =>
    cases rest with
    | nil => exact hP p (by simp)
    | cons q qs =>
      rw [show joinNL (p :: q :: qs) = p ++ ['\n'] ++ joinNL (q :: qs) from rfl]
      simp

theorem sumLen_append (A B : List Str) :
    sumLen (A ++ B) = sumLen A + sumLen B := by
  unfold sumLen
  rw [List.map_append, List.sum_append]

theorem flush_measure (cur : Str) (hcur : cur = [] ∨ ∃ x, cur = x ++ ['\n']) :
    sumLen (if strip cur ≠ [] then [strip cur] else []) +
      (if strip cur ≠ [] then [strip cur] else []).length ≤ cur.length := by
  rcases hcur with rfl | ⟨x, rfl⟩
  · simp [strip, trimLeft, trimRight, sumLen]
  · split
    · have := length_strip_append_newline x
      simp only [sumLen, List.map_cons, List.map_nil, List.sum_cons,
        List.sum_nil, List.length_singleton, List.length_append,
        List.length_cons, List.length_nil]
      omega
    · simp [sumLen]

theorem paraGo_measure : ∀ (lines : List Str) (cur : Str),
    (cur = [] ∨ ∃ x, cur = x ++ ['\n']) →
    sumLen (paraGo lines cur) + (paraGo lines cur).length ≤
      (lines.map (fun l => l.length + 1)).sum + cur.length := by
  intro lines
  induction lines with
  | nil =>
    intro cur hcur
    rw [paraGo]
    simpa using flush_measure cur hcur
  | cons l rest ih =>
    intro cur hcur
    rw [paraGo]
    simp only [List.map_cons, List.sum_cons]
    split
    · -- PAGE marker line
      have hflush := flush_measure cur hcur
      have hrest := ih [] (Or.inl rfl)
      have hls := length_strip_le l
      rw [sumLen_append, List.length_append]
      simp only [sumLen, List.map_cons, List.map_nil, List.sum_cons,
        List.sum_nil, List.length_cons, List.length_nil] at hflush hrest ⊢
      omega
    · split
      · -- blank line
        split
        · -- something pending: flush it
          rename_i hg
          have hrest := ih [] (Or.inl rfl)
          have hflush := flush_measure cur hcur
          rw [if_pos hg] at hflush
          simp only [sumLen, List.map_cons, List.map_nil, List.sum_cons,
            List.sum_nil, List.length_cons, List.length_nil] at hflush hrest ⊢
          omega
        · -- nothing pending
          have hrest := ih cur hcur
          omega
      · -- accumulate the line
        have hnew : (cur ++ l ++ ['\n']) = [] ∨
            ∃ x, cur ++ l ++ ['\n'] = x ++ ['\n'] := Or.inr ⟨cur ++ l, rfl⟩
        have hrest := ih (cur ++ l ++ ['\n']) hnew
        simp only [List.length_append, List.length_cons, List.length_nil] at hrest ⊢
        omega

theorem sum_map_add_one (P : List Str) :
    (P.map (fun l => l.length + 1)).sum = sumLen P + P.length := by
  induction P with
  | nil => rfl
  | cons p ps ih =>
    simp only [List.map_cons, List.sum_cons, sumLen, List.length_cons] at ih ⊢
    omega

theorem paragraphsOf_measure (text : Str) :
    sumLen (paragraphsOf text) + (paragraphsOf text).length ≤ text.length + 1 := by
  unfold paragraphsOf
  have h1 := paraGo_measure (splitChar '\n' text) [] (Or.inl rfl)
  have h2 := splitChar_sumLen '\n' text
  rw [sum_map_add_one] at h1
  simp only [List.length_nil] at h1
  omega

theorem chunkGo_no_split (maxC overlapC : Nat) (d : Str) :
    ∀ (ps pre : List Str) (idx : Nat),
      sumLen pre + pre.length + sumLen ps + ps.length ≤ maxC + 1 →
      chunkGo maxC overlapC d ps pre (sumLen pre + pre.length) idx =
        chunkGo maxC overlapC d [] (pre ++ ps) 0 idx := by
  intro ps
  induction ps with
  | nil =>
    intro pre idx _
    rw [List.append_nil]
    rw [chunkGo, chunkGo]
  | cons p rest ih =>
    intro pre idx h
    have hsum : sumLen (p :: rest) = p.length + sumLen rest := by
      simp [sumLen]
    have hlen4 : (p :: rest).length = rest.length + 1 := by simp
    have hcond : ¬(sumLen pre + pre.length + p.length > maxC ∧
        500 ≤ sumLen pre + pre.length ∧ pre ≠ []) := by
      intro ⟨h1, _, _⟩
      omega
    conv_lhs => rw [chunkGo]
    rw [if_neg hcond]
    have he1 : sumLen (pre ++ [p]) = sumLen pre + p.length := by
      rw [sumLen_append]
      simp [sumLen]
    have he2 : (pre ++ [p]).length = pre.length + 1 := by simp
    have harg : sumLen pre + pre.length + p.length + 1 =
        sumLen (pre ++ [p]) + (pre ++ [p]).length := by omega
    rw [harg]
    have hbound : sumLen (pre ++ [p]) + (pre ++ [p]).length + sumLen rest +
        rest.length ≤ maxC + 1 := by omega
    rw [ih (pre ++ [p]) idx hbound, List.append_assoc]
    rfl

/-- C5 counterexample: the 4-character text `"a\n\nb"` is well under
`maxChunkChars`, is its own trim, but its single chunk's text is
`"a\nb"` — the paragraph split collapses the blank line, so the chunk
does NOT equal the document text trimmed. -/
theorem small_text_chunk_normalizes :
    (str "a\n\nb").length ≤ 2500 ∧
    strip (str "a\n\nb") = str "a\n\nb" ∧
    (splitTextIntoChunks 2500 400 (str "a\n\nb") (str "d")).map
      (fun c => c.text) = [str "a\nb"] ∧
    str "a\nb" ≠ str "a\n\nb" := by
  decide

/-- C5 amended: for every text no longer than `maxChunkChars` the
chunker yields zero chunks when the text is empty or whitespace-only,
and otherwise exactly one chunk with index 0 — but its text is the
newline-join of the text's paragraph decomposition (blank lines
collapsed, `[PAGE:` marker lines isolated, paragraphs trimmed), not
necessarily the raw text trimmed. -/
theorem splitTextIntoChunks_small (maxC overlapC : Nat) (text d : Str)
    (hlen : text.length ≤ maxC) :
    splitTextIntoChunks maxC overlapC text d =
      if text = [] ∨ strip text = [] then []
      else [mkChunk d 0 (joinNL (paragraphsOf text))] := by
  unfold splitTextIntoChunks
  split
  · rfl
  · rename_i hcond
    push_neg at hcond
    have hstrip : strip text ≠ [] := hcond.2
    have hP : paragraphsOf text ≠ [] := paragraphsOf_ne_nil text hstrip
    have hPP : ∀ p ∈ paragraphsOf text, p ≠ [] ∧ strip p = p := by
      intro p hp
      exact paraGo_stripped _ _ p hp
    have hbound := paragraphsOf_measure text
    have hrun := chunkGo_no_split maxC overlapC d (paragraphsOf text) [] 0 (by
      have h00 : sumLen ([] : List Str) = 0 := rfl
      have h01 : ([] : List Str).length = 0 := rfl
      omega)
    rw [show sumLen ([] : List Str) + ([] : List Str).length = 0 from rfl,
      List.nil_append] at hrun
    rw [hrun, chunkGo]
    rw [if_pos hP]
    have hj : strip (joinNL (paragraphsOf text)) = joinNL (paragraphsOf text) :=
      strip_joinNL _ hPP
    have hjn : joinNL (paragraphsOf text) ≠ [] :=
      joinNL_ne_nil _ hP (fun p hp => (hPP p hp).1)
    simp only [hj]
    rw [if_pos hjn]

/-- C5 witness: the concrete small text `"a\n\nb"`. -/
theorem splitTextIntoChunks_small_witness :
    (str "a\n\nb").length ≤ 2500 ∧
    splitTextIntoChunks 2500 400 (str "a\n\nb") (str "d") =
      (if str "a\n\nb" = [] ∨ strip (str "a\n\nb") = [] then []
       else [mkChunk (str "d") 0 (joinNL (paragraphsOf (str "a\n\nb")))]) :=
  ⟨by decide,
   splitTextIntoChunks_small 2500 400 (str "a\n\nb") (str "d") (by decide)⟩

/-! ## C1 — crawl boundedness -/

theorem bigText_len : bigText.length = 20001 := by
  rw [bigText, List.length_cons, List.length_replicate]

theorem bigText_ne : bigText ≠ [] := by
  show ('a' :: List.replicate 20000 'a') ≠ []
  exact List.cons_ne_nil _ _

theorem bigText_nl : '\n' ∉ bigText := by
  intro hmem
  rcases List.mem_cons.mp hmem with he | hm
  · exact absurd he (by decide)
  · exact absurd (List.eq_of_mem_replicate hm) (by decide)

theorem bigText_ws : ∀ x ∈ bigText, pyWS x = false := by
  intro x hx
  rcases List.mem_cons.mp hx with he | hm
  · rw [he]; rfl
  · rw [List.eq_of_mem_replicate hm]; rfl

/-- `_split_large_text` on a single oversized paragraph returns that
paragraph as the sole chunk (the split condition requires a non-empty
accumulator, which the first paragraph never has). -/
theorem splitLargeText_single (t : Str) (h20 : 20000 < t.length)
    (hnl : '\n' ∉ t) (hws : ∀ c ∈ t, pyWS c = false) (hne : t ≠ []) :
    splitLargeText t 20000 = [t] := by
  unfold splitLargeText
  rw [if_neg (by omega)]
  rw [splitNN_not_mem t hnl]
  rw [splitLargeGo, if_neg (by simp)]
  rw [List.nil_append, splitLargeGo]
  have hj : joinNN [t] = t := rfl
  dsimp only
  rw [hj, strip_eq_self t hws, if_pos hne, if_pos (by simp)]

theorem crawlStepA :
    crawlStep webA 1 3 (registrableDomain (netlocOf urlA)) (crawlInit urlA) =
      some ⟨[], [urlA], pagesA, [(urlA, 0)]⟩ := by
  have hsplit := splitLargeText_single bigText (by rw [bigText_len]; norm_num)
    bigText_nl bigText_ws bigText_ne
  unfold crawlStep crawlInit webA
  dsimp only
  rw [if_pos (show ([] : List (Str × PageEntry)).length < 1 from by decide)]
  rw [if_neg (show ¬(urlA ∈ ([] : List Str) ∨ 3 < 0) from by decide)]
  rw [if_pos (rfl : urlA = urlA)]
  dsimp only
  rw [if_neg (show ¬(200 ≠ 200) from by decide)]
  rw [if_pos (show str "application/pdf" ≠ [] ∧
    str "application/pdf" ≠ str "text/html" from by decide)]
  rw [if_pos (show 20000 < bigText.length from by rw [bigText_len]; norm_num)]
  unfold addChunkEntries
  rw [hsplit]
  rfl

theorem crawlRunA :
    crawlRun webA 1 3 urlA 5 = ⟨[], [urlA], pagesA, [(urlA, 0)]⟩ := by
  have hstep2 : crawlStep webA 1 3 (registrableDomain (netlocOf urlA))
      ⟨[], [urlA], pagesA, [(urlA, 0)]⟩ = none := by
    unfold crawlStep
    rw [if_neg (show ¬(pagesA.length < 1) from by
      rw [show pagesA.length = 2 from rfl]; norm_num)]
  have hsucc : ∀ (fuel : Nat) s, crawlLoop webA 1 3
      (registrableDomain (netlocOf urlA)) (fuel + 1) s =
      (match crawlStep webA 1 3 (registrableDomain (netlocOf urlA)) s with
       | none => s
       | some s' => crawlLoop webA 1 3 (registrableDomain (netlocOf urlA)) fuel s') :=
    fun fuel s => rfl
  unfold crawlRun
  rw [show (5 : Nat) = 4 + 1 from rfl, hsucc, crawlStepA]
  dsimp only
  rw [show (4 : Nat) = 3 + 1 from rfl, hsucc, hstep2]

/-- C1 counterexample: crawling `webA` with `maxPages = 1` stores TWO
entries in `result.pages` — the complete document and its chunk entry,
both written inside the same loop iteration after the `len(result.pages)
< MAX_PAGES` guard was checked — so the returned document map exceeds
the configured page cap. -/
theorem crawl_pages_exceed_cap :
    (crawlRun webA 1 3 urlA 5).pages.length = 2 ∧
    ¬((crawlRun webA 1 3 urlA 5).pages.length ≤ 1) := by
  rw [crawlRunA]
  refine ⟨rfl, by rw [show pagesA.length = 2 from rfl]; norm_num⟩

theorem nonChunkCount_le_length (m : List (Str × PageEntry)) :
    nonChunkCount m ≤ m.length :=
  List.length_filter_le _ m

theorem nonChunkCount_dictSet_le (m : List (Str × PageEntry)) (k : Str)
    (v : PageEntry) :
    nonChunkCount (dictSet m k v) ≤ nonChunkCount m + 1 := by
  induction m with
  | nil =>
    unfold dictSet nonChunkCount
    simp only [List.filter]
    split <;> simp
  | cons hd tl ih =>
    unfold dictSet
    split
    · unfold nonChunkCount
      simp only [List.filter]
      cases hv : (!v.isChunk) <;> cases hh : (!hd.2.isChunk) <;> simp <;> omega
    · unfold nonChunkCount at ih ⊢
      simp only [List.filter]
      cases hh : (!hd.2.isChunk) <;> simp <;> omega

theorem nonChunkCount_dictSet_chunk (m : List (Str × PageEntry)) (k : Str)
    (v : PageEntry) (hv : v.isChunk = true) :
    nonChunkCount (dictSet m k v) ≤ nonChunkCount m := by
  induction m with
  | nil =>
    unfold dictSet nonChunkCount
    simp [List.filter, hv]
  | cons hd tl ih =>
    unfold dictSet
    split
    · unfold nonChunkCount
      simp only [List.filter, hv]
      cases hh : (!hd.2.isChunk) <;> simp <;> omega
    · unfold nonChunkCount at ih ⊢
      simp only [List.filter]
      cases hh : (!hd.2.isChunk) <;> simp <;> omega

theorem nonChunkCount_addChunkEntries (pages : List (Str × PageEntry))
    (doc_id text : Str) :
    nonChunkCount (addChunkEntries pages doc_id text) ≤ nonChunkCount pages := by
  unfold addChunkEntries
  generalize (splitLargeText text 20000).enum = L
  induction L generalizing pages with
  | nil => simp
  | cons hd tl ih =>
    rw [List.foldl_cons]
    calc nonChunkCount (tl.foldl _ (dictSet pages _ _)) ≤
        nonChunkCount (dictSet pages
          (doc_id ++ str "#chunk-" ++ natStr (hd.1 + 1))
          ⟨hd.2, true, some doc_id⟩) := ih _
      _ ≤ nonChunkCount pages := nonChunkCount_dictSet_chunk _ _ _ rfl

theorem crawlStep_pages_bound (web : Web) (maxPages maxDepth : Nat)
    (baseReg : Str) (s s' : CrawlState)
    (hstep : crawlStep web maxPages maxDepth baseReg s = some s') :
    nonChunkCount s'.pages ≤ maxPages := by
  unfold crawlStep at hstep
  split at hstep
  · rename_i hlt
    split at hstep
    · simp at hstep
    · rename_i url depth rest hq
      dsimp only at hstep
      split at hstep
      · rw [← Option.some.inj hstep]
        exact Nat.le_trans (nonChunkCount_le_length _) (Nat.le_of_lt hlt)
      · split at hstep
        · rw [← Option.some.inj hstep]
          exact Nat.le_trans (nonChunkCount_le_length _) (Nat.le_of_lt hlt)
        · rename_i f hf
          split at hstep
          · rw [← Option.some.inj hstep]
            exact Nat.le_trans (nonChunkCount_le_length _) (Nat.le_of_lt hlt)
          · have hd := nonChunkCount_dictSet_le s.pages
              (str "docs://" ++ url) ⟨f.text, false, none⟩
            have hcb := nonChunkCount_le_length s.pages
            have hpages2 : nonChunkCount
                (if 20000 < f.text.length then
                  addChunkEntries (dictSet s.pages (str "docs://" ++ url)
                    ⟨f.text, false, none⟩) (str "docs://" ++ url) f.text
                else dictSet s.pages (str "docs://" ++ url)
                  ⟨f.text, false, none⟩) ≤ maxPages := by
              split
              · have ha := nonChunkCount_addChunkEntries
                  (dictSet s.pages (str "docs://" ++ url) ⟨f.text, false, none⟩)
                  (str "docs://" ++ url) f.text
                omega
              · omega
            split at hstep
            · rw [← Option.some.inj hstep]
              exact hpages2
            · rw [← Option.some.inj hstep]
              exact hpages2
  · simp at hstep

theorem crawlStep_fetchLog (web : Web) (maxPages maxDepth : Nat)
    (baseReg : Str) (s s' : CrawlState)
    (hstep : crawlStep web maxPages maxDepth baseReg s = some s') :
    ∀ e ∈ s'.fetchLog, e ∈ s.fetchLog ∨ e.2 ≤ maxDepth := by
  unfold crawlStep at hstep
  split at hstep
  · split at hstep
    · simp at hstep
    · rename_i url depth rest hq
      dsimp only at hstep
      split at hstep
      · rw [← Option.some.inj hstep]
        intro e he
        exact Or.inl he
      · rename_i hnd
        have hdep : depth ≤ maxDepth := by
          push_neg at hnd
          omega
        have hlog : ∀ t : CrawlState,
            t.fetchLog = s.fetchLog ++ [(url, depth)] → some t = some s' →
            ∀ e ∈ s'.fetchLog, e ∈ s.fetchLog ∨ e.2 ≤ maxDepth := by
          intro t ht heq e he
          rw [← Option.some.inj heq, ht] at he
          rcases List.mem_append.mp he with h1 | h2
          · exact Or.inl h1
          · right
            rw [List.mem_singleton.mp h2]
            exact hdep
        split at hstep
        · exact hlog _ rfl hstep
        · rename_i f hf
          split at hstep
          · exact hlog _ rfl hstep
          · split at hstep
            · exact hlog _ rfl hstep
            · exact hlog _ rfl hstep
  · simp at hstep

theorem mem_enqueueLinks (maxPages : Nat) (baseReg : Str)
    (visited : List Str) (pl d1 : Nat) :
    ∀ (links : List Str) (q : List (Str × Nat)) (e : Str × Nat),
      e ∈ enqueueLinks maxPages baseReg visited pl d1 links q →
      e ∈ q ∨ sameDomainOrSubdomain (netlocOf e.1) baseReg = true := by
  intro links
  induction links with
  | nil => intro q e he; exact Or.inl he
  | cons href rest ih =>
    intro q e he
    rw [show enqueueLinks maxPages baseReg visited pl d1 (href :: rest) q =
      enqueueLinks maxPages baseReg visited pl d1 rest
        (if isHttpUrl (stripFragment href) then
          if sameDomainOrSubdomain (netlocOf (stripFragment href)) baseReg then
            if stripFragment href ∉ visited ∧ pl + q.length < maxPages then
              q ++ [(stripFragment href, d1)]
            else q
          else q
        else q) from rfl] at he
    rcases ih _ e he with h1 | h2
    · split at h1
      · split at h1
        · rename_i hdom
          split at h1
          · rcases List.mem_append.mp h1 with ha | hb
            · exact Or.inl ha
            · right
              rw [List.mem_singleton.mp hb]
              exact hdom
          · exact Or.inl h1
        · exact Or.inl h1
      · exact Or.inl h1
    · exact Or.inr h2

theorem crawlStep_queue (web : Web) (maxPages maxDepth : Nat)
    (baseReg : Str) (s s' : CrawlState)
    (hstep : crawlStep web maxPages maxDepth baseReg s = some s') :
    ∀ e ∈ s'.queue, e ∈ s.queue ∨
      sameDomainOrSubdomain (netlocOf e.1) baseReg = true := by
  unfold crawlStep at hstep
  split at hstep
  · split at hstep
    · simp at hstep
    · rename_i url depth rest hq
      dsimp only at hstep
      have hrest : ∀ e : Str × Nat, e ∈ rest → e ∈ s.queue := by
        intro e he
        rw [hq]
        exact List.mem_cons_of_mem _ he
      split at hstep
      · rw [← Option.some.inj hstep]
        intro e he
        exact Or.inl (hrest e he)
      · split at hstep
        · rw [← Option.some.inj hstep]
          intro e he
          exact Or.inl (hrest e he)
        · rename_i f hf
          split at hstep
          · rw [← Option.some.inj hstep]
            intro e he
            exact Or.inl (hrest e he)
          · split at hstep
            · rw [← Option.some.inj hstep]
              intro e he
              exact Or.inl (hrest e he)
            · rw [← Option.some.inj hstep]
              intro e he
              rcases mem_enqueueLinks maxPages baseReg _ _ _ f.links rest e he
                with h1 | h2
              · exact Or.inl (hrest e h1)
              · exact Or.inr h2
  · simp at hstep

theorem crawlLoop_preserve (web : Web) (maxPages maxDepth : Nat)
    (baseReg : Str) (P : CrawlState → Prop)
    (hP : ∀ s s', crawlStep web maxPages maxDepth baseReg s = some s' →
      P s → P s') :
    ∀ (fuel : Nat) (s : CrawlState), P s →
      P (crawlLoop web maxPages maxDepth baseReg fuel s) := by
  intro fuel
  induction fuel with
  | zero => intro s hs; exact hs
  | succ n ih =>
    intro s hs
    rw [crawlLoop]
    cases hstep : crawlStep web maxPages maxDepth baseReg s with
    | none => exact hs
    | some s1 => exact ih s1 (hP s s1 hstep hs)

/-- C1 amended: for every site, configuration, root URL and number of
loop iterations, the count of complete (non-chunk) documents in
`result.pages` never exceeds `MAX_PAGES`, and every fetch performed by
the crawl happened at a traversal depth of at most `MAX_DEPTH`.  The
raw size of the pages dict, however, CAN exceed `MAX_PAGES` through the
chunk sub-entries stored for oversized documents (see the
counterexample), so the original claim's `len(map) ≤ P` holds only for
the complete documents. -/
theorem crawl_bounded_amended (web : Web) (maxPages maxDepth : Nat)
    (rootUrl : Str) (fuel : Nat) :
    nonChunkCount (crawlRun web maxPages maxDepth rootUrl fuel).pages ≤
      maxPages ∧
    ∀ e ∈ (crawlRun web maxPages maxDepth rootUrl fuel).fetchLog,
      e.2 ≤ maxDepth := by
  unfold crawlRun
  constructor
  · exact crawlLoop_preserve web maxPages maxDepth _
      (fun st => nonChunkCount st.pages ≤ maxPages)
      (fun s s' h _ => crawlStep_pages_bound web maxPages maxDepth _ s s' h)
      fuel _ (by simp [crawlInit, nonChunkCount])
  · exact crawlLoop_preserve web maxPages maxDepth _
      (fun st => ∀ e ∈ st.fetchLog, e.2 ≤ maxDepth)
      (fun s s' h hp e he => by
        rcases crawlStep_fetchLog web maxPages maxDepth _ s s' h e he with h1 | h2
        · exact hp e h1
        · exact h2)
      fuel _ (by simp [crawlInit])

/-! ## C6 — domain scoping of enqueued links -/

/-- C1 witness: on the concrete site the non-chunk count is within the
cap and the logged root fetch is within the depth cap. -/
theorem crawl_bounded_amended_witness :
    nonChunkCount
      (crawlRun webC6 50 3 (str "https://docs.example.com/") 2).pages ≤ 50 ∧
    ((str "https://docs.example.com/", 0) : Str × Nat).2 ≤ 3 :=
  ⟨(crawl_bounded_amended webC6 50 3 (str "https://docs.example.com/") 2).1,
   (crawl_bounded_amended webC6 50 3 (str "https://docs.example.com/") 2).2
     (str "https://docs.example.com/", 0) (by decide)⟩

/-- C6: every entry ever present in the crawl queue is either the root
seed or has a host inside the root's registrable domain (equal to it or
a dot-suffix subdomain) — discovered links are enqueued only if they
pass `_same_domain_or_subdomain`.  Concretely, with the crawl rooted at
`https://docs.example.com/`: the registrable domain is `example.com`,
`evil.example.org` fails the check while `sub.docs.example.com` passes
it, and in the concrete crawl the subdomain page is enqueued and fetched
(it appears in `visited`) while the foreign page never is. -/
theorem crawl_domain_scoping :
    (∀ (web : Web) (maxPages maxDepth fuel : Nat) (rootUrl : Str),
      ∀ e ∈ (crawlRun web maxPages maxDepth rootUrl fuel).queue,
        e = (rootUrl, 0) ∨
        sameDomainOrSubdomain (netlocOf e.1)
          (registrableDomain (netlocOf rootUrl)) = true) ∧
    registrableDomain (netlocOf (str "https://docs.example.com/")) =
      str "example.com" ∧
    sameDomainOrSubdomain (str "evil.example.org") (str "example.com") =
      false ∧
    sameDomainOrSubdomain (str "sub.docs.example.com") (str "example.com") =
      true ∧
    str "https://sub.docs.example.com/y" ∈
      (crawlRun webC6 50 3 (str "https://docs.example.com/") 10).visited ∧
    str "https://evil.example.org/x" ∉
      (crawlRun webC6 50 3 (str "https://docs.example.com/") 10).visited := by
  refine ⟨?_, by decide, by decide, by decide, by decide, by decide⟩
  intro web maxPages maxDepth fuel rootUrl
  unfold crawlRun
  exact crawlLoop_preserve web maxPages maxDepth _
    (fun st => ∀ e ∈ st.queue, e = (rootUrl, 0) ∨
      sameDomainOrSubdomain (netlocOf e.1)
        (registrableDomain (netlocOf rootUrl)) = true)
    (fun s s' h hp e he => by
      rcases crawlStep_queue web maxPages maxDepth _ s s' h e he with h1 | h2
      · exact hp e h1
      · exact Or.inr h2)
    fuel _ (by
      intro e he
      simp only [crawlInit, List.mem_singleton] at he
      exact Or.inl he)

/-- C6 witness: after one loop iteration of the concrete crawl the queue
holds exactly the subdomain link, and the invariant applies to it. -/
theorem crawl_domain_scoping_witness :
    ((str "https://sub.docs.example.com/y", 1) : Str × Nat) =
        (str "https://docs.example.com/", 0) ∨
      sameDomainOrSubdomain
        (netlocOf (str "https://sub.docs.example.com/y"))
        (registrableDomain (netlocOf (str "https://docs.example.com/"))) =
        true :=
  crawl_domain_scoping.1 webC6 50 3 1 (str "https://docs.example.com/")
    (str "https://sub.docs.example.com/y", 1) (by decide)
